import Mathlib

/-!
Verification development for the transact context manager
(src/libtransact/src/context/manager.rs) and serial scheduler
(src/libtransact/src/scheduler/serial/mod.rs).

Keys, values and state ids are modelled as `String` (the reference tests
instantiate the generic `K`/`V` parameters with `String`); a `ContextId`
(an opaque 128-bit identifier used only for equality and map lookup) is
modelled as `Nat`, with freshness supplied by the caller in place of the
UUID generator.  The `HashMap<ContextId, Context>` is modelled as an
association list.  Fallible operations return `Option`; `none` stands for
an error (`MissingContextError` on an unknown context id, or a state-read
failure) and, in the fuelled traversals, also for a traversal that does
not complete within the given fuel (the source has no cycle guard and
diverges on a cyclic ancestor graph).  The `events` and `data` fields of
a context are omitted: no claim under verification mentions them.
-/

namespace Transact

/-- `StateChange` from receipts.rs: a tagged variant `Set { key, value }`
or `Delete { key }`. -/
inductive StateChange where
  | set (key value : String)
  | delete (key : String)
deriving DecidableEq, Repr

/-- `StateChange::has_key`: true when the change (either variant) carries
the given key. -/
def StateChange.hasKey : StateChange → String → Bool
  | .set k _, key => k == key
  | .delete k, key => k == key

/-- Modelled from the spec: `Context` (src/libtransact/src/context/mod.rs is
not in the source tree).  Per the spec's data model, a context holds a
`state_id` set at construction, an ordered `base_contexts` list and an
append-only `state_changes` list. -/
structure Context where
  baseContexts : List Nat
  stateChanges : List StateChange
  stateId : String
deriving DecidableEq, Repr

/-- Modelled from the spec: `Context::get_state` (context/mod.rs is not in
the source tree).  Resolves by scanning `state_changes` in reverse: the
most recent `Set` for the key yields its value, a `Delete` yields absent,
no entry yields absent. -/
def Context.get_state (c : Context) (k : String) : Option String :=
  match c.stateChanges.reverse.find? (fun sc => sc.hasKey k) with
  | some (.set _ v) => some v
  | _ => none

/-- Modelled from the spec: `Context::contains` (context/mod.rs is not in
the source tree).  The spec's §4.1 wording ("any entry for k exists") is
inconsistent with the spec's own end-to-end scenarios 1 and 2 and with the
in-source manager tests (`get_values`, `add_delete_state_change`), all of
which require a key whose most recent change is a `Delete` to be treated
as not contained, so that the ancestor/state fallback is consulted.  The
behaviour pinned down by those tests is modelled: `contains` holds exactly
when the most recent change for the key is a `Set`. -/
def Context.contains (c : Context) (k : String) : Bool :=
  match c.stateChanges.reverse.find? (fun sc => sc.hasKey k) with
  | some (.set _ _) => true
  | _ => false

/-- Modelled from the spec: `Context::set_state` appends `Set{k,v}`. -/
def Context.set_state (c : Context) (k v : String) : Context :=
  { c with stateChanges := c.stateChanges ++ [.set k v] }

/-- Modelled from the spec: `Context::delete_state` appends `Delete{k}` and
returns the value visible immediately before the delete, from this context
only. -/
def Context.delete_state (c : Context) (k : String) : Context × Option String :=
  ({ c with stateChanges := c.stateChanges ++ [.delete k] }, c.get_state k)

/-- `ContextManager<K, V, R>`: a map from `ContextId` to `Context` plus an
owned state reader.  The reader (`state::Read`, not in the source tree) is
modelled from the spec as a point-read function from an immutable snapshot
id and a key to an optional value; read errors are not modelled (no claim
mentions them). -/
structure ContextManager where
  contexts : List (Nat × Context)
  database : String → String → Option String

/-- `ContextManager::get_context`: look up a context by id (`None` models
`MissingContextError`). -/
def ContextManager.get_context (cm : ContextManager) (id : Nat) : Option Context :=
  (cm.contexts.find? (fun p => p.1 == id)).map Prod.snd

/-- Replacing the context stored under `id` (the effect of the source's
mutation through `get_context_mut`). -/
def ContextManager.setContext (cm : ContextManager) (id : Nat) (c : Context) :
    ContextManager :=
  { cm with contexts := cm.contexts.map (fun p => if p.1 == id then (id, c) else p) }

/-- Resolving a list of context ids to contexts, failing on the first
unknown id (the `self.get_context(context_id)?` calls that fill the
traversal queues). -/
def ContextManager.resolveAll (cm : ContextManager) (ids : List Nat) :
    Option (List Context) :=
  ids.mapM cm.get_context

/-- `ContextManager::create_context`, with the freshly generated UUID
replaced by a caller-supplied id. -/
def ContextManager.create_context (cm : ContextManager) (id : Nat)
    (dependentContexts : List Nat) (stateId : String) : ContextManager :=
  { cm with contexts := cm.contexts ++ [(id, ⟨dependentContexts, [], stateId⟩)] }

/-- `ContextManager::set_state`: append a `Set` to the specified context. -/
def ContextManager.set_state (cm : ContextManager) (id : Nat) (k v : String) :
    Option ContextManager :=
  (cm.get_context id).map (fun c => cm.setContext id (c.set_state k v))

/-- The `while let Some(current_context) = contexts.pop_front()` loop of
`ContextManager::get` (manager.rs lines 135-145): the accumulator is the
`context` variable, reassigned to every popped context; a popped context
that contains the key ends the loop, otherwise its base contexts are
resolved and pushed on the back of the queue. -/
def ContextManager.getLoop (cm : ContextManager) (k : String) :
    Context → List Context → Nat → Option Context
  | c, [], _ => some c
  | _, _ :: _, 0 => none
  | _, cur :: rest, fuel + 1 =>
    if cur.contains k then some cur
    else
      match cm.resolveAll cur.baseContexts with
      | some bs => cm.getLoop k cur (rest ++ bs) fuel
      | none => none

/-- The body of `ContextManager::get` for one key (manager.rs lines
128-167): resolve the context and its base contexts, run the traversal
only when the context itself lacks the key and has ancestors, then report
the most recent change of the final context, falling back to the database
at the final context's `state_id`; a key found nowhere produces no output
pair. -/
def ContextManager.getKey (cm : ContextManager) (id : Nat) (k : String)
    (fuel : Nat) : Option (List (String × Option String)) :=
  match cm.get_context id with
  | none => none
  | some ctx =>
    match cm.resolveAll ctx.baseContexts with
    | none => none
    | some queue =>
      match (if !ctx.contains k && !queue.isEmpty
             then cm.getLoop k ctx queue fuel else some ctx) with
      | none => none
      | some c =>
        if c.contains k then
          match c.stateChanges.reverse.find? (fun sc => sc.hasKey k) with
          | some (.set k2 v) => some [(k2, some v)]
          | _ => some [(k, none)]
        else
          match cm.database c.stateId k with
          | some v => some [(k, some v)]
          | none => some []

/-- `ContextManager::get`: iterate the key list in reverse, pushing each
key's pairs onto the result vector. -/
def ContextManager.get (cm : ContextManager) (id : Nat) (keys : List String)
    (fuel : Nat) : Option (List (String × Option String)) :=
  keys.reverse.foldlM (fun acc k => (cm.getKey id k fuel).map (fun l => acc ++ l)) []

/-- The `while let Some(context) = contexts.pop_front()` loop of
`ContextManager::delete_state` (manager.rs lines 208-217): the accumulator
is `containing_context`, reassigned only when a popped context contains
the key (the loop then breaks); otherwise the popped context's base
contexts are pushed on the back of the queue. -/
def ContextManager.deleteLoop (cm : ContextManager) (k : String) :
    Context → List Context → Nat → Option Context
  | containing, [], _ => some containing
  | _, _ :: _, 0 => none
  | containing, cur :: rest, fuel + 1 =>
    if cur.contains k then some cur
    else
      match cm.resolveAll cur.baseContexts with
      | some bs => cm.deleteLoop k containing (rest ++ bs) fuel
      | none => none

/-- `ContextManager::delete_state` (manager.rs lines 186-230): append a
`Delete` to the context via `Context::delete_state` and return its value
when it found one; otherwise search the (already mutated) context and its
ancestors breadth-first, starting from a queue holding the context itself
followed by its base contexts, and finally fall back to the database at
the original context's `state_id`. -/
def ContextManager.delete_state (cm : ContextManager) (id : Nat) (k : String)
    (fuel : Nat) : Option (ContextManager × Option String) :=
  match cm.get_context id with
  | none => none
  | some ctx0 =>
    let cm2 := cm.setContext id (ctx0.delete_state k).1
    match (ctx0.delete_state k).2 with
    | some v => some (cm2, some v)
    | none =>
      match cm2.get_context id with
      | none => none
      | some cur =>
        match cm2.resolveAll cur.baseContexts with
        | none => none
        | some bases =>
          match cm2.deleteLoop k cur (cur :: bases) fuel with
          | none => none
          | some containing =>
            if containing.contains k then
              match containing.get_state k with
              | some v => some (cm2, some v)
              | none => some (cm2, none)
            else
              match cm2.database cur.stateId k with
              | some v => some (cm2, some v)
              | none => some (cm2, none)

/-- The spec's `visible` traversal (spec §4.2, quoted by the claims): pop a
context from the front of the queue; a context that contains the key is
the result ("first match wins"); otherwise its base contexts are pushed on
the back.  `some none` reports that the queue was exhausted with no match;
`none` reports an unknown base context id or insufficient fuel. -/
def explore (cm : ContextManager) (k : String) :
    List Context → Nat → Option (Option Context)
  | [], _ => some none
  | _ :: _, 0 => none
  | cur :: rest, fuel + 1 =>
    if cur.contains k then some (some cur)
    else
      match cm.resolveAll cur.baseContexts with
      | some bs => explore cm k (rest ++ bs) fuel
      | none => none

/-- The search order stated by the spec and claim C1 for `delete_state`:
(1) the context's own prior state changes (`ctx0`, before the delete was
appended); (2) ancestor contexts by breadth-first traversal of
`base_contexts`, first match wins; (3) the state reader at the context's
own `state_id`.  The ancestor traversal runs over the manager as updated
by the appended delete (`cmAfter`), which is what the source consults. -/
def claimDeleteVisible (cmAfter : ContextManager) (ctx0 : Context) (k : String)
    (fuel : Nat) : Option (Option String) :=
  match ctx0.get_state k with
  | some v => some (some v)
  | none =>
    match cmAfter.resolveAll ctx0.baseContexts with
    | none => none
    | some q =>
      match explore cmAfter k q fuel with
      | none => none
      | some (some c) => some (c.get_state k)
      | some none => some (cmAfter.database ctx0.stateId k)


/-- Backing store of the reference scenarios (tests
`add_delete_state_change` and `get_values`): snapshot "S0" holds
`K1 -> V1` and nothing else. -/
def cmScenarioBase : ContextManager :=
  ⟨[], fun sid k => if sid == "S0" && k == "K1" then some "V1" else none⟩

/-- Common prefix of the reference scenarios: ancestor context 0 sets
`K2 -> V2`; context 1 (base context 0) sets `K3 -> V3` and `K4 -> V4`. -/
def cmScenario : Option ContextManager :=
  ((cmScenarioBase.create_context 0 [] "S0").set_state 0 "K2" "V2").bind fun cmA =>
  ((cmA.create_context 1 [0] "S0").set_state 1 "K3" "V3").bind fun cm3 =>
  cm3.set_state 1 "K4" "V4"

/-- The delete sequence of test `add_delete_state_change` / spec scenario 2:
the four returned values of deleting `K1`, `K2`, `K3`, `K5` on context 1. -/
def deleteScenario : Option (List (Option String)) :=
  cmScenario.bind fun cm4 =>
  (cm4.delete_state 1 "K1" 9).bind fun p1 =>
  (p1.1.delete_state 1 "K2" 9).bind fun p2 =>
  (p2.1.delete_state 1 "K3" 9).bind fun p3 =>
  (p3.1.delete_state 1 "K5" 9).map fun p4 =>
  [p1.2, p2.2, p3.2, p4.2]

/-- The read of test `get_values` / spec scenario 1: delete `K4` on
context 1 (which had set it), then get `[K1, K2, K4, K5]`. -/
def getScenario : Option (List (String × Option String)) :=
  cmScenario.bind fun cm4 =>
  (cm4.delete_state 1 "K4" 9).bind fun p1 =>
  p1.1.get 1 ["K1", "K2", "K4", "K5"] 9

/-- One-context manager over an empty store, used to instantiate the
universally quantified theorems at a concrete input. -/
def cmUnit : ContextManager := ⟨[(0, ⟨[], [], "S"⟩)], fun _ _ => none⟩


/-- Manager with one context whose key `K4` was set and then deleted, over
an empty store (the situation of test `get_values`). -/
def cmDel : ContextManager :=
  ⟨[(0, ⟨[], [.set "K4" "V4", .delete "K4"], "S"⟩)], fun _ _ => none⟩

/-- Manager with context 1 (state id "S2") whose only ancestor is context 0
(state id "S1"); the store holds `K -> V1` in snapshot "S1" only. -/
def cmAncestor : ContextManager :=
  ⟨[(0, ⟨[], [], "S1"⟩), (1, ⟨[0], [], "S2"⟩)],
   fun sid k => if sid == "S1" && k == "K" then some "V1" else none⟩

/-- Whether `get` keeps an output pair for the key (its per-key resolution
succeeds with a non-empty pair list). -/
def ContextManager.keyKept (cm : ContextManager) (id : Nat) (k : String)
    (fuel : Nat) : Bool :=
  match cm.getKey id k fuel with
  | some (_ :: _) => true
  | _ => false

/-- The ancestor chain of a context: the context itself and every context
reachable from it by resolving `base_contexts` ids through the manager
(exactly the contexts a breadth-first traversal can visit). -/
inductive OnChain (cm : ContextManager) (root : Context) : Context → Prop
  | refl : OnChain cm root root
  | step (c c2 : Context) (cid : Nat) : OnChain cm root c →
      cid ∈ c.baseContexts → cm.get_context cid = some c2 →
      OnChain cm root c2

/-- Manager with one context holding only a `Delete` for `K1`, over a store
whose snapshot "S0" maps `K1 -> V1`: a key deleted in the chain that the
store still has. -/
def cmDelStore : ContextManager :=
  ⟨[(0, ⟨[], [.delete "K1"], "S0"⟩)],
   fun sid k => if sid == "S0" && k == "K1" then some "V1" else none⟩

/-- Queue relation comparing the traversal actually run by `delete_state`
(whose queue starts with the just-mutated context itself, so its base
contexts are enqueued twice) with the traversal specified by the claim
(over the base contexts alone).  `Ext S A q1 q2` says `q2` is `q1` with
extra entries interleaved; each extra entry is either in `S` (a context
already known not to contain the key whose resolved base contexts trail
behind) or a duplicate of a genuine entry appearing earlier in `q2`
(recorded leftmost-first in the accumulator `A`). -/
inductive Ext (S : Context → Prop) :
    List Context → List Context → List Context → Prop
  | nil (A : List Context) : Ext S A [] []
  | cons (A : List Context) (x : Context) (t1 t2 : List Context) :
      Ext S (x :: A) t1 t2 → Ext S A (x :: t1) (x :: t2)
  | extra (A : List Context) (x : Context) (q1 t2 : List Context) :
      (S x ∨ x ∈ A) → Ext S A q1 t2 → Ext S A q1 (x :: t2)

/-- Semantic side condition for `explore_ext`: every context in `S` does
not contain the key and resolves its base contexts to a list lying inside
`S` or the reference queue `q1`. -/
def ExtInv (cm : ContextManager) (k : String) (S : Context → Prop)
    (q1 : List Context) : Prop :=
  ∀ s, S s → s.contains k = false ∧
    ∃ cs, cm.resolveAll s.baseContexts = some cs ∧ ∀ y ∈ cs, S y ∨ y ∈ q1

/-- `BatchPair` (opaque at this layer): a stable `header_signature` and an
ordered sequence of transactions, each represented by its own stable
header signature string. -/
structure BatchPair where
  headerSignature : String
  txns : List String
deriving DecidableEq, Repr

/-- The `SchedulerError` variants the claims mention. -/
inductive SchedulerError where
  | duplicateBatch (sig : String)
  | schedulerFinalized
  | noTaskIterator
deriving DecidableEq, Repr

/-- Modelled from the spec: `Shared` (scheduler/serial/shared.rs is not in
the source tree).  The guarded record holding the unscheduled-batch queue,
the finalized flag and the set of seen batch header signatures (the result
and error callbacks are not modelled; no claim mentions them). -/
structure Shared where
  unscheduled : List BatchPair
  finalized : Bool
  seenBatchIds : List String
deriving DecidableEq, Repr

/-- Modelled from the spec: `Shared::add_unscheduled_batch` appends the
batch to the queue and inserts its header signature into
`seen_batch_ids`. -/
def Shared.addUnscheduledBatch (s : Shared) (b : BatchPair) : Shared :=
  { s with unscheduled := s.unscheduled ++ [b],
           seenBatchIds := s.seenBatchIds ++ [b.headerSignature] }

/-- Modelled from the spec: `Shared::batch_already_queued` is a membership
test on `seen_batch_ids`. -/
def Shared.batchAlreadyQueued (s : Shared) (b : BatchPair) : Bool :=
  s.seenBatchIds.contains b.headerSignature

/-- Modelled from the spec: `Shared::drain_unscheduled_batches` removes and
returns all queued batches and does not clear `seen_batch_ids`. -/
def Shared.drainUnscheduledBatches (s : Shared) : List BatchPair × Shared :=
  (s.unscheduled, { s with unscheduled := [] })

/-- The control messages the client half of `SerialScheduler` sends to the
core thread (`BatchAdded` carries no payload in the source). -/
inductive SentMessage where
  | batchAddedNote
  | finalizedNote
deriving DecidableEq, Repr

/-- The client-facing state of `SerialScheduler` (serial/mod.rs): the
shared record, the messages sent down the core channel, and whether the
single-use task iterator is still present (`task_iterator: Option<...>`). -/
structure SerialScheduler where
  shared : Shared
  sentMessages : List SentMessage
  taskIteratorPresent : Bool
deriving DecidableEq, Repr

/-- `SerialScheduler::new`: empty shared state, task iterator present. -/
def SerialScheduler.new : SerialScheduler := ⟨⟨[], false, []⟩, [], true⟩

/-- `SerialScheduler::add_batch` (serial/mod.rs lines 131-153): refuse with
`SchedulerFinalized` when finalized, then with `DuplicateBatch` when the
header signature was already seen; otherwise enqueue the batch and send
`BatchAdded` to the core. -/
def SerialScheduler.add_batch (s : SerialScheduler) (b : BatchPair) :
    Except SchedulerError Unit × SerialScheduler :=
  if s.shared.finalized then (.error .schedulerFinalized, s)
  else if s.shared.batchAlreadyQueued b then
    (.error (.duplicateBatch b.headerSignature), s)
  else
    let s2 : SerialScheduler :=
      { s with shared := s.shared.addUnscheduledBatch b,
               sentMessages := s.sentMessages ++ [.batchAddedNote] }
    (.ok (), s2)

/-- `SerialScheduler::cancel` (serial/mod.rs lines 155-157): drain the
unscheduled batches. -/
def SerialScheduler.cancel (s : SerialScheduler) :
    List BatchPair × SerialScheduler :=
  ((s.shared.drainUnscheduledBatches).1,
   { s with shared := (s.shared.drainUnscheduledBatches).2 })

/-- `SerialScheduler::finalize` (serial/mod.rs lines 159-163): set the
finalized flag and send `Finalized` to the core. -/
def SerialScheduler.finalize (s : SerialScheduler) : SerialScheduler :=
  { s with shared := { s.shared with finalized := true },
           sentMessages := s.sentMessages ++ [.finalizedNote] }

/-- `SerialScheduler::take_task_iterator` (serial/mod.rs lines 165-171):
`Option::take` on the iterator field, `NoTaskIterator` once taken. -/
def SerialScheduler.take_task_iterator (s : SerialScheduler) :
    Except SchedulerError Unit × SerialScheduler :=
  if s.taskIteratorPresent then (.ok (), { s with taskIteratorPresent := false })
  else (.error .noTaskIterator, s)

/-- Modelled from the spec: the core (scheduler/serial/core.rs is not in
the source tree) makes the front batch of the unscheduled queue active
(main-loop rule 1); only its effect on the shared queue is modelled
here. -/
def SerialScheduler.coreActivate (s : SerialScheduler) : SerialScheduler :=
  match s.shared.unscheduled with
  | [] => s
  | _ :: rest => { s with shared := { s.shared with unscheduled := rest } }

/-- The client-side operations that may run between two points of
interest. -/
inductive SchedOp where
  | addBatch (b : BatchPair)
  | cancelOp
  | finalizeOp
  | takeIterator
  | activate
deriving DecidableEq, Repr

def SerialScheduler.applyOp (s : SerialScheduler) : SchedOp → SerialScheduler
  | .addBatch b => (s.add_batch b).2
  | .cancelOp => (s.cancel).2
  | .finalizeOp => s.finalize
  | .takeIterator => (s.take_task_iterator).2
  | .activate => s.coreActivate

def SerialScheduler.runOps (s : SerialScheduler) : List SchedOp → SerialScheduler
  | [] => s
  | op :: ops => (s.applyOp op).runOps ops

/-- The batches whose `add_batch` succeeds along an operation sequence. -/
def SerialScheduler.addsOf (s : SerialScheduler) : List SchedOp → List BatchPair
  | [] => []
  | op :: ops =>
    (match op with
     | .addBatch b =>
       if s.shared.finalized || s.shared.batchAlreadyQueued b then [] else [b]
     | _ => []) ++ (s.applyOp op).addsOf ops

/-- The number of batches made active (dequeued) along an operation
sequence. -/
def SerialScheduler.activationsOf (s : SerialScheduler) : List SchedOp → Nat
  | [] => 0
  | op :: ops =>
    (match op with
     | .activate => if s.shared.unscheduled.isEmpty then 0 else 1
     | _ => 0) + (s.applyOp op).activationsOf ops

/-- `ExecutionTaskCompletionNotification`, restricted to what the claims
need: a valid or invalid outcome for a transaction id. -/
inductive Notification where
  | valid (txnId : String)
  | invalid (txnId : String)
deriving DecidableEq, Repr

def Notification.txnId : Notification → String
  | .valid t => t
  | .invalid t => t

/-- Modelled from the spec: `CoreMessage` (core.rs is not in the source
tree).  `batchAdded` carries the batch that the caller appended to the
shared queue immediately before sending the wake-up (the source sends the
payload-free `BatchAdded` while holding the lock that guarded the
enqueue, so enqueue order equals message order). -/
inductive CoreMessage where
  | batchAdded (b : BatchPair)
  | finalizedWake
  | executionResult (n : Notification)
  | shutdownWake
deriving DecidableEq, Repr

/-- Modelled from the spec: the per-active-batch state of the core
(main-loop rules, spec section 4.4). -/
structure ActiveBatch where
  batch : BatchPair
  remaining : List String
  current : Option String
  results : List String
  invalidated : Bool
deriving DecidableEq, Repr

/-- Modelled from the spec: the state owned by the core worker. -/
structure CoreState where
  queue : List BatchPair
  finalizedFlag : Bool
  done : Bool
  active : Option ActiveBatch
deriving DecidableEq, Repr

/-- The externally observable events of a core run: an `ExecutionTask`
emitted on the execution channel (tagged with its batch signature and
transaction id), a completion notification received and processed, a
per-batch result callback, the terminal end-of-stream callback, and the
`UnexpectedNotification` error callback. -/
inductive CoreEvent where
  | task (batchSig txnId : String)
  | notifyProcessed (txnId : String)
  | batchResult (sig : String) (ok : Bool)
  | endOfStream
  | errorUnexpected (txnId : String)
deriving DecidableEq, Repr

def batchWeight (b : BatchPair) : Nat := b.txns.length + 1

def activeWeight : Option ActiveBatch → Nat
  | none => 0
  | some ab => 2 * ab.remaining.length + 1

/-- Modelled from the spec: the scheduling pass of the core main loop
(rules 1, 2, 3 and 5 of spec section 4.4), run after each message until
quiescent: activate the front batch when idle, dispatch the next
transaction of the active batch when none is in flight, finish the batch
when its transaction queue empties or it was invalidated, and deliver the
terminal end-of-stream callback when idle, drained and finalized.  The
core state is passed as separate arguments (queue, finalized flag, done
flag, active batch). -/
def progressAux (q : List BatchPair) (flag don : Bool)
    (act : Option ActiveBatch) : CoreState × List CoreEvent :=
  match act with
  | some ab =>
    match ab.current with
    | some _ => (⟨q, flag, don, some ab⟩, [])
    | none =>
      match ab.remaining, ab.invalidated with
      | t :: ts, false =>
        (⟨q, flag, don, some ⟨ab.batch, ts, some t, ab.results, false⟩⟩,
         [.task ab.batch.headerSignature t])
      | _, _ =>
        ((progressAux q flag don none).1,
         .batchResult ab.batch.headerSignature (!ab.invalidated)
           :: (progressAux q flag don none).2)
  | none =>
    match q with
    | [] =>
      if flag && !don then (⟨[], flag, true, none⟩, [.endOfStream])
      else (⟨[], flag, don, none⟩, [])
    | b :: rest => progressAux rest flag don (some ⟨b, b.txns, none, [], false⟩)
termination_by 2 * (q.map batchWeight).sum + activeWeight act
decreasing_by
  all_goals simp only [activeWeight, List.map_cons, List.sum_cons, batchWeight]
  all_goals omega

/-- The scheduling pass on a packed core state. -/
def progress (s : CoreState) : CoreState × List CoreEvent :=
  progressAux s.queue s.finalizedFlag s.done s.active

/-- Modelled from the spec: processing one `CoreMessage` (rule 4 of spec
section 4.4 for completion notifications, followed by the scheduling
pass).  A notification whose transaction id differs from the in-flight
one surfaces `UnexpectedNotification` and invalidates the batch. -/
def coreStep (s : CoreState) : CoreMessage → CoreState × List CoreEvent
  | .batchAdded b => progress { s with queue := s.queue ++ [b] }
  | .finalizedWake => progress { s with finalizedFlag := true }
  | .shutdownWake => (s, [])
  | .executionResult n =>
    match s.active with
    | none => (s, [.notifyProcessed n.txnId, .errorUnexpected n.txnId])
    | some ab =>
      match ab.current with
      | none => (s, [.notifyProcessed n.txnId, .errorUnexpected n.txnId])
      | some c =>
        if n.txnId == c then
          match n with
          | .valid _ =>
            let ab2 : ActiveBatch :=
              ⟨ab.batch, ab.remaining, none, ab.results ++ [c], ab.invalidated⟩
            let p := progress { s with active := some ab2 }
            (p.1, .notifyProcessed n.txnId :: p.2)
          | .invalid _ =>
            let ab2 : ActiveBatch := ⟨ab.batch, [], none, ab.results, true⟩
            let p := progress { s with active := some ab2 }
            (p.1, .notifyProcessed n.txnId :: p.2)
        else
          let ab2 : ActiveBatch := ⟨ab.batch, [], none, ab.results, true⟩
          let p := progress { s with active := some ab2 }
          (p.1, .notifyProcessed n.txnId :: .errorUnexpected n.txnId :: p.2)

/-- A run of the core worker over a message sequence; `Shutdown` stops the
loop. -/
def coreRun (s : CoreState) : List CoreMessage → CoreState × List CoreEvent
  | [] => (s, [])
  | .shutdownWake :: _ => (s, [])
  | m :: ms =>
    let p := coreStep s m
    let q := coreRun p.1 ms
    (q.1, p.2 ++ q.2)

/-- The initial core state: nothing queued, not finalized, no active
batch. -/
def coreInit : CoreState := ⟨[], false, false, none⟩

/-- The header signatures added by one message. -/
def msgSigs : CoreMessage → List String
  | .batchAdded b => [b.headerSignature]
  | _ => []

/-- The header signatures of all batches added by a message sequence. -/
def addedSigs : List CoreMessage → List String
  | [] => []
  | m :: ms => msgSigs m ++ addedSigs ms

def CoreEvent.isTask : CoreEvent → Bool
  | .task _ _ => true
  | _ => false

/-- No event of the list is a task emission. -/
def taskFree (es : List CoreEvent) : Prop := ∀ e ∈ es, e.isTask = false

/-- The batch signatures of the task events of a trace, in order. -/
def taskSigs (tr : List CoreEvent) : List String :=
  tr.filterMap (fun e => match e with
    | .task sg _ => some sg
    | _ => none)

/-- The transaction ids of the task events of a trace carrying the given
batch signature, in order. -/
def tasksOf (sg : String) (tr : List CoreEvent) : List String :=
  tr.filterMap (fun e => match e with
    | .task sg2 t => if sg2 == sg then some t else none
    | _ => none)

/-- The batch signature and transaction id of the most recent task event
of a trace. -/
def lastTask (tr : List CoreEvent) : Option (String × String) :=
  tr.reverse.findSome? (fun e => match e with
    | .task sg t => some (sg, t)
    | _ => none)

/-- The trace has, after its last task event, a processed completion
notification for the given transaction id. -/
def NotifySince (tr : List CoreEvent) (t1 : String) : Prop :=
  ∃ A B, tr = A ++ B ∧ taskFree B ∧ CoreEvent.notifyProcessed t1 ∈ B

/-- The ordering property of claim C6: between two consecutive task
emissions of the same batch, the completion notification for the earlier
transaction was received and processed. -/
def TraceOk (tr : List CoreEvent) : Prop :=
  ∀ (pre mid post : List CoreEvent) (sg t1 t2 : String),
    tr = pre ++ [.task sg t1] ++ mid ++ [.task sg t2] ++ post →
    taskFree mid → CoreEvent.notifyProcessed t1 ∈ mid

/-- Relation between the core state and the trace emitted so far: an
in-flight transaction is the most recent task of the trace, and a batch
ready to dispatch has already had its previous task's notification
processed after that task. -/
def ActiveOk (s : CoreState) (tr : List CoreEvent) : Prop :=
  ∀ ab, s.active = some ab →
    (∀ c, ab.current = some c →
      lastTask tr = some (ab.batch.headerSignature, c)) ∧
    (ab.current = none → ab.invalidated = false →
      ∀ t1, lastTask tr = some (ab.batch.headerSignature, t1) → NotifySince tr t1)

/-- The signatures of batches already dispatched never recur in the queue
or among the batches yet to be added. -/
def SigsFresh (s : CoreState) (tr : List CoreEvent) (future : List String) : Prop :=
  ∀ sg ∈ taskSigs tr,
    sg ∉ s.queue.map BatchPair.headerSignature ∧ sg ∉ future

/-- Well-formedness of the core state relative to the signatures yet to be
added: queue signatures are distinct, disjoint from the future ones, and
the active batch's signature occurs in neither. -/
def WFCore (s : CoreState) (future : List String) : Prop :=
  (s.queue.map BatchPair.headerSignature).Nodup ∧
  (∀ sg ∈ s.queue.map BatchPair.headerSignature, sg ∉ future) ∧
  (∀ ab, s.active = some ab →
    ab.batch.headerSignature ∉ s.queue.map BatchPair.headerSignature ∧
    ab.batch.headerSignature ∉ future)

/-- Where a given batch stands during a run: not yet added (signature among
the future ones), queued, active, or finished; in every stage the tasks
already emitted for its signature form a prefix of its transaction
list. -/
def BatchStage (b : BatchPair) (s : CoreState) (tr : List CoreEvent)
    (future : List String) : Prop :=
  (b.headerSignature ∈ future ∧ tasksOf b.headerSignature tr = []) ∨
  (b ∈ s.queue ∧ tasksOf b.headerSignature tr = []) ∨
  (∃ ab, s.active = some ab ∧ ab.batch = b ∧
    (tasksOf b.headerSignature tr).IsPrefix b.txns ∧
    (ab.invalidated = false →
      b.txns = tasksOf b.headerSignature tr ++ ab.remaining)) ∨
  ((tasksOf b.headerSignature tr).IsPrefix b.txns ∧
    b.headerSignature ∉ s.queue.map BatchPair.headerSignature ∧
    b.headerSignature ∉ future ∧
    (∀ ab, s.active = some ab → ab.batch.headerSignature ≠ b.headerSignature))


/-- The conjunction of the core-loop invariants tying the state to the
trace emitted so far and the signatures yet to be added. -/
def coreInv (s : CoreState) (tr : List CoreEvent) (future : List String) : Prop :=
  ActiveOk s tr ∧ TraceOk tr ∧ SigsFresh s tr future ∧ WFCore s future

theorem Context.contains_eq_isSome (c : Context) (k : String) :
    c.contains k = (c.get_state k).isSome := by
  unfold Context.contains Context.get_state
  cases h : c.stateChanges.reverse.find? (fun sc => sc.hasKey k) with
  | none => simp
  | some sc => cases sc <;> simp

theorem Context.contains_append_delete (c : Context) (k : String) :
    Context.contains ⟨c.baseContexts, c.stateChanges ++ [.delete k], c.stateId⟩ k
      = false := by
  unfold Context.contains
  simp [List.find?_cons, StateChange.hasKey]

/-- Fuel monotonicity of the breadth-first traversal. -/
theorem explore_mono (cm : ContextManager) (k : String) :
    ∀ (f : Nat) (q : List Context) (r : Option Context),
      explore cm k q f = some r → explore cm k q (f + 1) = some r := by
  intro f
  induction f with
  | zero =>
    intro q r h
    cases q with
    | nil => simpa [explore] using h
    | cons c rest => simp [explore] at h
  | succ f ih =>
    intro q r h
    cases q with
    | nil => simpa [explore] using h
    | cons c rest =>
      rw [explore] at h ⊢
      by_cases hc : c.contains k = true
      · simpa [hc] using h
      · simp only [hc] at h ⊢
        simp only [Bool.false_eq_true, if_false] at h ⊢
        cases hres : cm.resolveAll c.baseContexts with
        | none => rw [hres] at h; exact Option.noConfusion h
        | some bs => rw [hres] at h; exact ih _ _ h

/-- If the traversal finds a context, that context contains the key. -/
theorem explore_some_contains (cm : ContextManager) (k : String) :
    ∀ (f : Nat) (q : List Context) (c : Context),
      explore cm k q f = some (some c) → c.contains k = true := by
  intro f
  induction f with
  | zero =>
    intro q c h
    cases q with
    | nil => simp [explore] at h
    | cons x rest => simp [explore] at h
  | succ f ih =>
    intro q c h
    cases q with
    | nil => simp [explore] at h
    | cons x rest =>
      rw [explore] at h
      by_cases hc : x.contains k = true
      · simp [hc] at h; rw [← h]; exact hc
      · simp only [hc, Bool.false_eq_true, if_false] at h
        cases hres : cm.resolveAll x.baseContexts with
        | none => rw [hres] at h; exact Option.noConfusion h
        | some bs => rw [hres] at h; exact ih _ _ h

/-- `delete_state`'s loop equals the spec traversal with the
`containing_context` accumulator substituted for an exhausted queue. -/
theorem deleteLoop_eq_explore (cm : ContextManager) (k : String) :
    ∀ (f : Nat) (c : Context) (q : List Context),
      cm.deleteLoop k c q f = (explore cm k q f).map (fun r => r.getD c) := by
  intro f
  induction f with
  | zero =>
    intro c q
    cases q with
    | nil => simp [ContextManager.deleteLoop, explore]
    | cons x rest => simp [ContextManager.deleteLoop, explore]
  | succ f ih =>
    intro c q
    cases q with
    | nil => simp [ContextManager.deleteLoop, explore]
    | cons x rest =>
      rw [ContextManager.deleteLoop, explore]
      by_cases hc : x.contains k = true
      · simp [hc]
      · simp only [hc, Bool.false_eq_true, if_false]
        cases hres : cm.resolveAll x.baseContexts with
        | none => rfl
        | some bs => exact ih _ _

theorem Ext.mono {S S' : Context → Prop} :
    ∀ {A A' q1 q2}, Ext S A q1 q2 →
      (∀ a, S a ∨ a ∈ A → S' a ∨ a ∈ A') → Ext S' A' q1 q2 := by
  intro A A' q1 q2 h
  induction h generalizing A' with
  | nil A => intro _; exact Ext.nil A'
  | cons A x t1 t2 h ih =>
    intro himp
    refine Ext.cons A' x t1 t2 (ih ?_)
    intro a ha
    rcases ha with ha | ha
    · rcases himp a (Or.inl ha) with h' | h'
      · exact Or.inl h'
      · exact Or.inr (List.mem_cons_of_mem _ h')
    · rcases List.mem_cons.mp ha with rfl | ha
      · exact Or.inr (List.mem_cons_self _ _)
      · rcases himp a (Or.inr ha) with h' | h'
        · exact Or.inl h'
        · exact Or.inr (List.mem_cons_of_mem _ h')
  | extra A x q1 t2 hx h ih =>
    intro himp
    exact Ext.extra A' x q1 _ (himp x hx) (ih himp)

theorem Ext.refl (S : Context → Prop) : ∀ (l A : List Context), Ext S A l l := by
  intro l
  induction l with
  | nil => intro A; exact Ext.nil A
  | cons x t ih => intro A; exact Ext.cons A x t t (ih (x :: A))

theorem Ext.append {S : Context → Prop} :
    ∀ {A q1 q2} (l : List Context), Ext S A q1 q2 → Ext S A (q1 ++ l) (q2 ++ l) := by
  intro A q1 q2 l h
  induction h with
  | nil A => exact Ext.refl S l A
  | cons A x t1 t2 _ ih => exact Ext.cons A x _ _ ih
  | extra A x q1 t2 hx _ ih => exact Ext.extra A x _ _ hx ih

theorem Ext.appendExtras {S : Context → Prop} :
    ∀ {A q1 q2} (l : List Context), Ext S A q1 q2 →
      (∀ y ∈ l, S y ∨ y ∈ A ∨ y ∈ q1) → Ext S A q1 (q2 ++ l) := by
  intro A q1 q2 l h
  induction h with
  | nil A =>
    intro hl
    induction l with
    | nil => exact Ext.nil A
    | cons y t ih =>
      refine Ext.extra A y [] _ ?_ (ih ?_)
      · rcases hl y (List.mem_cons_self _ _) with h' | h' | h'
        · exact Or.inl h'
        · exact Or.inr h'
        · exact absurd h' (List.not_mem_nil _)
      · intro z hz; exact hl z (List.mem_cons_of_mem _ hz)
  | cons A x t1 t2 _ ih =>
    intro hl
    refine Ext.cons A x t1 _ (ih ?_)
    intro y hy
    rcases hl y hy with h' | h' | h'
    · exact Or.inl h'
    · exact Or.inr (Or.inl (List.mem_cons_of_mem _ h'))
    · rcases List.mem_cons.mp h' with rfl | h'
      · exact Or.inr (Or.inl (List.mem_cons_self _ _))
      · exact Or.inr (Or.inr h')
  | extra A x q1 t2 hx _ ih =>
    intro hl
    exact Ext.extra A x q1 _ hx (ih hl)

/-- A successful traversal of the duplicated queue yields the same result
on the plain queue: popping an `S`-entry neither finds a match (its key is
absent) nor enqueues anything new (its base contexts trail behind as
further duplicates). -/
theorem explore_ext (cm : ContextManager) (k : String) :
    ∀ (f : Nat) (S : Context → Prop) (q1 q2 : List Context) (r : Option Context),
      Ext S [] q1 q2 → ExtInv cm k S q1 →
      explore cm k q2 f = some r → explore cm k q1 f = some r := by
  intro f
  induction f with
  | zero =>
    intro S q1 q2 r hext _ hrun
    cases q2 with
    | nil =>
      cases hext with
      | nil => simpa [explore] using hrun
    | cons x rest => simp [explore] at hrun
  | succ f ih =>
    intro S q1 q2 r hext hinv hrun
    cases hext with
    | nil => simpa [explore] using hrun
    | cons A x t1 t2 h =>
      rw [explore] at hrun ⊢
      by_cases hc : x.contains k = true
      · simpa [hc] using hrun
      · simp only [hc, Bool.false_eq_true, if_false] at hrun ⊢
        cases hres : cm.resolveAll x.baseContexts with
        | none => rw [hres] at hrun; exact Option.noConfusion hrun
        | some bs =>
          rw [hres] at hrun
          refine ih (fun a => S a ∨ a = x) _ _ r ?_ ?_ hrun
          · refine Ext.append bs (Ext.mono h ?_)
            intro a ha
            rcases ha with ha | ha
            · exact Or.inl (Or.inl ha)
            · rcases List.mem_cons.mp ha with rfl | ha
              · exact Or.inl (Or.inr rfl)
              · exact absurd ha (List.not_mem_nil _)
          · intro s hs
            rcases hs with hs | rfl
            · obtain ⟨hc1, cs, hres1, hcs⟩ := hinv s hs
              refine ⟨hc1, cs, hres1, ?_⟩
              intro y hy
              rcases hcs y hy with h' | h'
              · exact Or.inl (Or.inl h')
              · rcases List.mem_cons.mp h' with rfl | h'
                · exact Or.inl (Or.inr rfl)
                · exact Or.inr (List.mem_append_left _ h')
            · refine ⟨by simpa using hc, bs, hres, ?_⟩
              intro y hy
              exact Or.inr (List.mem_append_right _ hy)
    | extra A x q1 t2 hx h =>
      have hSx : S x := by
        rcases hx with hx | hx
        · exact hx
        · exact absurd hx (List.not_mem_nil _)
      obtain ⟨hc, cs, hres, hcs⟩ := hinv x hSx
      rw [explore] at hrun
      simp only [hc, Bool.false_eq_true, if_false] at hrun
      rw [hres] at hrun
      have hq : explore cm k q1 f = some r := by
        refine ih S q1 (t2 ++ cs) r ?_ hinv hrun
        refine Ext.appendExtras cs h ?_
        intro y hy
        rcases hcs y hy with h' | h'
        · exact Or.inl h'
        · exact Or.inr (Or.inr h')
      exact explore_mono cm k f q1 r hq

theorem ContextManager.get_context_setContext_same (cm : ContextManager)
    (id : Nat) (c : Context) :
    (cm.setContext id c).get_context id = (cm.get_context id).map (fun _ => c) := by
  rcases cm with ⟨l, db⟩
  simp only [ContextManager.setContext, ContextManager.get_context]
  induction l with
  | nil => rfl
  | cons p t ih =>
    simp only [List.map_cons, List.find?_cons]
    by_cases hp : (p.1 == id) = true
    · rw [if_pos hp, hp]
      have h2 : ((id, c).1 == id) = true := by simp
      rw [h2]
      rfl
    · rw [if_neg hp]
      rw [Bool.eq_false_iff.mpr hp]
      exact ih

/-- C1: `delete_state` appends a `Delete` record to the context and returns
the value that was logically visible immediately before the delete,
searching first the context's own prior state changes, then ancestors by
breadth-first traversal of `base_contexts` (first match wins), then the
state reader at the context's own `state_id`; and on the reference
scenario (store `K1->V1`, context A sets `K2->V2`, context B over A sets
`K3->V3`, `K4->V4`) deleting `K1`, `K2`, `K3`, `K5` on B returns
`Some V1`, `Some V2`, `Some V3`, `None`. -/
theorem claim_C1_delete_state :
    (∀ (cm : ContextManager) (id : Nat) (k : String) (fuel : Nat)
        (out : ContextManager × Option String) (ctx0 : Context),
        cm.get_context id = some ctx0 →
        cm.delete_state id k fuel = some out →
        out.1 = cm.setContext id
            ⟨ctx0.baseContexts, ctx0.stateChanges ++ [.delete k], ctx0.stateId⟩ ∧
        claimDeleteVisible out.1 ctx0 k fuel = some out.2) ∧
    deleteScenario = some [some "V1", some "V2", some "V3", none] := by
  constructor
  · intro cm id k fuel out ctx0 hctx hdel
    simp only [ContextManager.delete_state, hctx, Context.delete_state] at hdel
    cases hg : ctx0.get_state k with
    | some v =>
      simp only [hg] at hdel
      injection hdel with hdel
      subst hdel
      refine ⟨rfl, ?_⟩
      simp [claimDeleteVisible, hg]
    | none =>
      simp only [hg] at hdel
      have hcur : (cm.setContext id
          ⟨ctx0.baseContexts, ctx0.stateChanges ++ [.delete k], ctx0.stateId⟩).get_context id
          = some ⟨ctx0.baseContexts, ctx0.stateChanges ++ [.delete k], ctx0.stateId⟩ := by
        rw [ContextManager.get_context_setContext_same, hctx]; rfl
      simp only [hcur] at hdel
      set cm2 := cm.setContext id
        ⟨ctx0.baseContexts, ctx0.stateChanges ++ [.delete k], ctx0.stateId⟩ with hcm2
      set ctx1 : Context :=
        ⟨ctx0.baseContexts, ctx0.stateChanges ++ [.delete k], ctx0.stateId⟩ with hctx1
      cases hres : cm2.resolveAll ctx1.baseContexts with
      | none => simp only [hres] at hdel; exact Option.noConfusion hdel
      | some bases =>
        simp only [hres] at hdel
        cases hloop : cm2.deleteLoop k ctx1 (ctx1 :: bases) fuel with
        | none => simp only [hloop] at hdel; exact Option.noConfusion hdel
        | some containing =>
          simp only [hloop] at hdel
          rw [deleteLoop_eq_explore] at hloop
          have hcontains1 : ctx1.contains k = false :=
            Context.contains_append_delete ctx0 k
          cases hexp : explore cm2 k (ctx1 :: bases) fuel with
          | none => rw [hexp] at hloop; exact Option.noConfusion hloop
          | some r0 =>
            rw [hexp] at hloop
            have hcnt : r0.getD ctx1 = containing := by
              simpa using hloop
            have hexp1 : explore cm2 k bases fuel = some r0 := by
              refine explore_ext cm2 k fuel (fun a => a = ctx1) bases (ctx1 :: bases) r0
                ?_ ?_ hexp
              · exact Ext.extra [] ctx1 bases bases (Or.inl rfl) (Ext.refl _ bases [])
              · intro s hs
                subst hs
                exact ⟨hcontains1, bases, hres, fun y hy => Or.inr hy⟩
            have hres0 : cm2.resolveAll ctx0.baseContexts = some bases := hres
            cases r0 with
            | some c =>
              have hc : c.contains k = true :=
                explore_some_contains cm2 k fuel (ctx1 :: bases) c hexp
              have hcc : containing = c := by rw [← hcnt]; rfl
              rw [hcc] at hdel
              rw [if_pos hc] at hdel
              have hgs : (c.get_state k).isSome = true := by
                rw [← Context.contains_eq_isSome]; exact hc
              cases hv : c.get_state k with
              | none => rw [hv] at hgs; exact Bool.noConfusion hgs
              | some v =>
                simp only [hv] at hdel
                injection hdel with hdel
                subst hdel
                refine ⟨rfl, ?_⟩
                simp only [claimDeleteVisible, hg, hres0, hexp1, hv]
            | none =>
              have hcc : containing = ctx1 := by rw [← hcnt]; rfl
              rw [hcc] at hdel
              rw [if_neg (by rw [hcontains1]; exact Bool.noConfusion)] at hdel
              cases hdb : cm2.database ctx1.stateId k with
              | some v =>
                simp only [hdb] at hdel
                injection hdel with hdel
                subst hdel
                have hdb0 : cm2.database ctx0.stateId k = some v := hdb
                refine ⟨rfl, ?_⟩
                simp only [claimDeleteVisible, hg, hres0, hexp1, hdb0]
              | none =>
                simp only [hdb] at hdel
                injection hdel with hdel
                subst hdel
                have hdb0 : cm2.database ctx0.stateId k = none := hdb
                refine ⟨rfl, ?_⟩
                simp only [claimDeleteVisible, hg, hres0, hexp1, hdb0]
  · decide

/-- Instantiation of `claim_C1_delete_state` at a concrete manager. -/
theorem claim_C1_delete_state_witness :
    cmUnit.setContext 0 ⟨[], [.delete "K"], "S"⟩
        = cmUnit.setContext 0 ⟨[], [] ++ [.delete "K"], "S"⟩ ∧
    claimDeleteVisible (cmUnit.setContext 0 ⟨[], [.delete "K"], "S"⟩)
        ⟨[], [], "S"⟩ "K" 3 = some none :=
  claim_C1_delete_state.1 cmUnit 0 "K" 3
    (cmUnit.setContext 0 ⟨[], [.delete "K"], "S"⟩, none) ⟨[], [], "S"⟩ rfl rfl

theorem Context.contains_find_set (c : Context) (k : String)
    (h : c.contains k = true) :
    ∃ v, c.stateChanges.reverse.find? (fun sc => sc.hasKey k)
      = some (.set k v) := by
  unfold Context.contains at h
  cases hf : c.stateChanges.reverse.find? (fun sc => sc.hasKey k) with
  | none => rw [hf] at h; exact Bool.noConfusion h
  | some sc =>
    cases sc with
    | set k2 v =>
      have hk := List.find?_some hf
      simp only [StateChange.hasKey, beq_iff_eq] at hk
      subst hk
      exact ⟨v, rfl⟩
    | delete k2 => rw [hf] at h; exact Bool.noConfusion h

theorem Context.contains_false_of_no_key (c : Context) (k : String)
    (h : ∀ sc ∈ c.stateChanges, sc.hasKey k = false) : c.contains k = false := by
  unfold Context.contains
  have hf : c.stateChanges.reverse.find? (fun sc => sc.hasKey k) = none := by
    rw [List.find?_eq_none]
    intro sc hsc
    simp [h sc (List.mem_reverse.mp hsc)]
  rw [hf]

theorem Context.get_state_none_of_no_key (c : Context) (k : String)
    (h : ∀ sc ∈ c.stateChanges, sc.hasKey k = false) : c.get_state k = none := by
  unfold Context.get_state
  have hf : c.stateChanges.reverse.find? (fun sc => sc.hasKey k) = none := by
    rw [List.find?_eq_none]
    intro sc hsc
    simp [h sc (List.mem_reverse.mp hsc)]
  rw [hf]

theorem ContextManager.get_context_mem (cm : ContextManager) (id : Nat)
    (c : Context) (h : cm.get_context id = some c) :
    c ∈ cm.contexts.map Prod.snd := by
  unfold ContextManager.get_context at h
  cases hf : cm.contexts.find? (fun p => p.1 == id) with
  | none => rw [hf] at h; exact Option.noConfusion h
  | some p =>
    rw [hf] at h
    injection h with h
    subst h
    exact List.mem_map_of_mem _ (List.mem_of_find?_eq_some hf)

theorem ContextManager.resolveAll_mem (cm : ContextManager) :
    ∀ (ids : List Nat) (cs : List Context), cm.resolveAll ids = some cs →
      ∀ c ∈ cs, c ∈ cm.contexts.map Prod.snd := by
  intro ids
  induction ids with
  | nil =>
    intro cs h c hc
    unfold ContextManager.resolveAll at h
    simp only [List.mapM_nil] at h
    injection h with h
    subst h
    exact absurd hc (List.not_mem_nil _)
  | cons a l ih =>
    intro cs h c hc
    unfold ContextManager.resolveAll at h
    rw [List.mapM_cons] at h
    cases ha : cm.get_context a with
    | none => rw [ha] at h; exact Option.noConfusion h
    | some ca =>
      rw [ha] at h
      cases hl : l.mapM cm.get_context with
      | none => rw [hl] at h; exact Option.noConfusion h
      | some cl =>
        rw [hl] at h
        injection h with h
        subst h
        rcases List.mem_cons.mp hc with rfl | hc
        · exact cm.get_context_mem a c ha
        · exact ih cl hl c hc

theorem ContextManager.getLoop_all (cm : ContextManager) (k : String)
    (H : ∀ c ∈ cm.contexts.map Prod.snd, c.contains k = false) :
    ∀ (f : Nat) (q : List Context) (acc c2 : Context),
      acc.contains k = false →
      (∀ c ∈ q, c ∈ cm.contexts.map Prod.snd) →
      cm.getLoop k acc q f = some c2 → c2.contains k = false := by
  intro f
  induction f with
  | zero =>
    intro q acc c2 hacc hq h
    cases q with
    | nil =>
      simp only [ContextManager.getLoop] at h
      injection h with h; subst h; exact hacc
    | cons x rest =>
      simp only [ContextManager.getLoop] at h
      exact Option.noConfusion h
  | succ f ih =>
    intro q acc c2 hacc hq h
    cases q with
    | nil =>
      simp only [ContextManager.getLoop] at h
      injection h with h; subst h; exact hacc
    | cons x rest =>
      simp only [ContextManager.getLoop] at h
      have hx : x.contains k = false := H x (hq x (List.mem_cons_self _ _))
      rw [hx] at h
      simp only [Bool.false_eq_true, if_false] at h
      cases hr : cm.resolveAll x.baseContexts with
      | none => rw [hr] at h; exact Option.noConfusion h
      | some bs =>
        rw [hr] at h
        refine ih (rest ++ bs) x c2 hx ?_ h
        intro c hc
        rcases List.mem_append.mp hc with hc | hc
        · exact hq c (List.mem_cons_of_mem _ hc)
        · exact cm.resolveAll_mem x.baseContexts bs hr c hc

theorem ContextManager.deleteLoop_all (cm : ContextManager) (k : String)
    (H : ∀ c ∈ cm.contexts.map Prod.snd, c.contains k = false) :
    ∀ (f : Nat) (q : List Context) (acc c2 : Context),
      acc.contains k = false →
      (∀ c ∈ q, c ∈ cm.contexts.map Prod.snd) →
      cm.deleteLoop k acc q f = some c2 → c2.contains k = false := by
  intro f
  induction f with
  | zero =>
    intro q acc c2 hacc hq h
    cases q with
    | nil =>
      simp only [ContextManager.deleteLoop] at h
      injection h with h; subst h; exact hacc
    | cons x rest =>
      simp only [ContextManager.deleteLoop] at h
      exact Option.noConfusion h
  | succ f ih =>
    intro q acc c2 hacc hq h
    cases q with
    | nil =>
      simp only [ContextManager.deleteLoop] at h
      injection h with h; subst h; exact hacc
    | cons x rest =>
      simp only [ContextManager.deleteLoop] at h
      have hx : x.contains k = false := H x (hq x (List.mem_cons_self _ _))
      rw [hx] at h
      simp only [Bool.false_eq_true, if_false] at h
      cases hr : cm.resolveAll x.baseContexts with
      | none => rw [hr] at h; exact Option.noConfusion h
      | some bs =>
        rw [hr] at h
        refine ih (rest ++ bs) acc c2 hacc ?_ h
        intro c hc
        rcases List.mem_append.mp hc with hc | hc
        · exact hq c (List.mem_cons_of_mem _ hc)
        · exact cm.resolveAll_mem x.baseContexts bs hr c hc

/-- Shape of a per-key resolution: either the key is omitted or exactly one
pair carrying the queried key is produced. -/
theorem ContextManager.getKey_shape (cm : ContextManager) (id : Nat)
    (k : String) (fuel : Nat) (l : List (String × Option String))
    (h : cm.getKey id k fuel = some l) : l = [] ∨ ∃ v, l = [(k, some v)] := by
  unfold ContextManager.getKey at h
  cases hc1 : cm.get_context id with
  | none => simp only [hc1] at h; exact Option.noConfusion h
  | some ctx =>
    simp only [hc1] at h
    cases hq : cm.resolveAll ctx.baseContexts with
    | none => simp only [hq] at h; exact Option.noConfusion h
    | some queue =>
      simp only [hq] at h
      cases hfin : (if !ctx.contains k && !queue.isEmpty
          then cm.getLoop k ctx queue fuel else some ctx) with
      | none => simp only [hfin] at h; exact Option.noConfusion h
      | some c =>
        simp only [hfin] at h
        by_cases hcc : c.contains k = true
        · rw [if_pos hcc] at h
          obtain ⟨v, hfind⟩ := Context.contains_find_set c k hcc
          rw [hfind] at h
          injection h with h
          exact Or.inr ⟨v, h.symm⟩
        · rw [if_neg hcc] at h
          cases hdb : cm.database c.stateId k with
          | some v => rw [hdb] at h; injection h with h; exact Or.inr ⟨v, h.symm⟩
          | none => rw [hdb] at h; injection h with h; exact Or.inl h.symm

/-- The per-key resolution of a key that is visible in no context (every
context's most recent change for it, if any, is a `Delete`) and absent from
the store produces no output pair. -/
theorem ContextManager.getKey_omits (cm : ContextManager) (id : Nat)
    (k : String) (fuel : Nat) (l : List (String × Option String))
    (H : ∀ c ∈ cm.contexts.map Prod.snd, c.contains k = false)
    (Hdb : ∀ sid, cm.database sid k = none)
    (h : cm.getKey id k fuel = some l) : l = [] := by
  unfold ContextManager.getKey at h
  cases hc1 : cm.get_context id with
  | none => simp only [hc1] at h; exact Option.noConfusion h
  | some ctx =>
    simp only [hc1] at h
    have hctx : ctx.contains k = false := H ctx (cm.get_context_mem id ctx hc1)
    cases hq : cm.resolveAll ctx.baseContexts with
    | none => simp only [hq] at h; exact Option.noConfusion h
    | some queue =>
      simp only [hq] at h
      cases hfin : (if !ctx.contains k && !queue.isEmpty
          then cm.getLoop k ctx queue fuel else some ctx) with
      | none => simp only [hfin] at h; exact Option.noConfusion h
      | some c =>
        simp only [hfin] at h
        have hcf : c.contains k = false := by
          by_cases hcond : (!ctx.contains k && !queue.isEmpty) = true
          · rw [if_pos hcond] at hfin
            exact cm.getLoop_all k H fuel queue ctx c hctx
              (fun c2 hc2 => cm.resolveAll_mem ctx.baseContexts queue hq c2 hc2) hfin
          · rw [if_neg hcond] at hfin
            injection hfin with hfin
            subst hfin
            exact hctx
        rw [if_neg (by rw [hcf]; exact Bool.noConfusion)] at h
        rw [Hdb c.stateId] at h
        injection h with h
        exact h.symm

/-- Membership in a `get` result comes from some per-key resolution. -/
theorem ContextManager.get_mem (cm : ContextManager) (id : Nat) (fuel : Nat) :
    ∀ (lst : List String) (acc r : List (String × Option String)),
      lst.foldlM (fun acc k => (cm.getKey id k fuel).map (fun l => acc ++ l)) acc
        = some r →
      ∀ p ∈ r, p ∈ acc ∨ ∃ k l, cm.getKey id k fuel = some l ∧ p ∈ l := by
  intro lst
  induction lst with
  | nil =>
    intro acc r h p hp
    rw [List.foldlM_nil] at h
    injection h with h
    subst h
    exact Or.inl hp
  | cons a l ih =>
    intro acc r h p hp
    rw [List.foldlM_cons] at h
    cases hk : cm.getKey id a fuel with
    | none => rw [hk] at h; exact Option.noConfusion h
    | some la =>
      rw [hk] at h
      rcases ih (acc ++ la) r h p hp with hin | hin
      · rcases List.mem_append.mp hin with hin | hin
        · exact Or.inl hin
        · exact Or.inr ⟨a, la, hk, hin⟩
      · exact Or.inr hin

/-- Each context produced by `resolveAll` comes from resolving one of the
given ids. -/
theorem ContextManager.resolveAll_find (cm : ContextManager) :
    ∀ (ids : List Nat) (cs : List Context), cm.resolveAll ids = some cs →
      ∀ c2 ∈ cs, ∃ cid ∈ ids, cm.get_context cid = some c2 := by
  intro ids
  induction ids with
  | nil =>
    intro cs h c2 hc2
    unfold ContextManager.resolveAll at h
    simp only [List.mapM_nil] at h
    injection h with h
    subst h
    exact absurd hc2 (List.not_mem_nil _)
  | cons a l ih =>
    intro cs h c2 hc2
    unfold ContextManager.resolveAll at h
    rw [List.mapM_cons] at h
    cases ha : cm.get_context a with
    | none => rw [ha] at h; exact Option.noConfusion h
    | some ca =>
      rw [ha] at h
      cases hl : l.mapM cm.get_context with
      | none => rw [hl] at h; exact Option.noConfusion h
      | some cl =>
        rw [hl] at h
        injection h with h
        subst h
        rcases List.mem_cons.mp hc2 with rfl | hc2
        · exact ⟨a, List.mem_cons_self _ _, ha⟩
        · obtain ⟨cid, hcid, hg⟩ := ih cl hl c2 hc2
          exact ⟨cid, List.mem_cons_of_mem _ hcid, hg⟩

/-- Resolving the base contexts of a chain context stays on the chain. -/
theorem OnChain.ofResolve (cm : ContextManager) (root c : Context)
    (hc : OnChain cm root c) (bs : List Context)
    (hres : cm.resolveAll c.baseContexts = some bs) :
    ∀ y ∈ bs, OnChain cm root y := by
  intro y hy
  obtain ⟨cid, hcid, hg⟩ := cm.resolveAll_find c.baseContexts bs hres y hy
  exact OnChain.step c y cid hc hcid hg

/-- The `get` traversal started on the chain, with every chain context
missing the key, ends on a chain context missing the key. -/
theorem ContextManager.getLoop_chain (cm : ContextManager) (root : Context)
    (k : String)
    (H : ∀ c, OnChain cm root c → c.contains k = false) :
    ∀ (f : Nat) (q : List Context) (acc c2 : Context),
      OnChain cm root acc →
      (∀ c ∈ q, OnChain cm root c) →
      cm.getLoop k acc q f = some c2 →
      c2.contains k = false ∧ OnChain cm root c2 := by
  intro f
  induction f with
  | zero =>
    intro q acc c2 hacc hq h
    cases q with
    | nil =>
      simp only [ContextManager.getLoop] at h
      injection h with h
      subst h
      exact ⟨H acc hacc, hacc⟩
    | cons x rest =>
      simp only [ContextManager.getLoop] at h
      exact Option.noConfusion h
  | succ f ih =>
    intro q acc c2 hacc hq h
    cases q with
    | nil =>
      simp only [ContextManager.getLoop] at h
      injection h with h
      subst h
      exact ⟨H acc hacc, hacc⟩
    | cons x rest =>
      simp only [ContextManager.getLoop] at h
      have hxc : OnChain cm root x := hq x (List.mem_cons_self _ _)
      have hx : x.contains k = false := H x hxc
      rw [hx] at h
      simp only [Bool.false_eq_true, if_false] at h
      cases hr : cm.resolveAll x.baseContexts with
      | none => rw [hr] at h; exact Option.noConfusion h
      | some bs =>
        rw [hr] at h
        refine ih (rest ++ bs) x c2 hxc ?_ h
        intro c hc
        rcases List.mem_append.mp hc with hc | hc
        · exact hq c (List.mem_cons_of_mem _ hc)
        · exact OnChain.ofResolve cm root x hxc bs hr c hc

/-- The `delete_state` traversal over a chain whose contexts all miss the
key reports a context missing the key. -/
theorem ContextManager.deleteLoop_chain (cm : ContextManager) (root : Context)
    (k : String)
    (H : ∀ c, OnChain cm root c → c.contains k = false) :
    ∀ (f : Nat) (q : List Context) (acc c2 : Context),
      acc.contains k = false →
      (∀ c ∈ q, OnChain cm root c) →
      cm.deleteLoop k acc q f = some c2 → c2.contains k = false := by
  intro f
  induction f with
  | zero =>
    intro q acc c2 hacc hq h
    cases q with
    | nil =>
      simp only [ContextManager.deleteLoop] at h
      injection h with h
      subst h
      exact hacc
    | cons x rest =>
      simp only [ContextManager.deleteLoop] at h
      exact Option.noConfusion h
  | succ f ih =>
    intro q acc c2 hacc hq h
    cases q with
    | nil =>
      simp only [ContextManager.deleteLoop] at h
      injection h with h
      subst h
      exact hacc
    | cons x rest =>
      simp only [ContextManager.deleteLoop] at h
      have hxc : OnChain cm root x := hq x (List.mem_cons_self _ _)
      have hx : x.contains k = false := H x hxc
      rw [hx] at h
      simp only [Bool.false_eq_true, if_false] at h
      cases hr : cm.resolveAll x.baseContexts with
      | none => rw [hr] at h; exact Option.noConfusion h
      | some bs =>
        rw [hr] at h
        refine ih (rest ++ bs) acc c2 hacc ?_ h
        intro c hc
        rcases List.mem_append.mp hc with hc | hc
        · exact hq c (List.mem_cons_of_mem _ hc)
        · exact OnChain.ofResolve cm root x hxc bs hr c hc

/-- Per-key resolution of a key visible in no chain context and absent from
the store at every chain snapshot: no output pair. -/
theorem ContextManager.getKey_omits_chain (cm : ContextManager) (id : Nat)
    (ctx0 : Context) (k : String) (fuel : Nat)
    (l : List (String × Option String))
    (hctx : cm.get_context id = some ctx0)
    (H : ∀ c, OnChain cm ctx0 c → c.contains k = false)
    (Hdb : ∀ c, OnChain cm ctx0 c → cm.database c.stateId k = none)
    (h : cm.getKey id k fuel = some l) : l = [] := by
  unfold ContextManager.getKey at h
  simp only [hctx] at h
  have hctxf : ctx0.contains k = false := H ctx0 OnChain.refl
  cases hq : cm.resolveAll ctx0.baseContexts with
  | none => simp only [hq] at h; exact Option.noConfusion h
  | some queue =>
    simp only [hq] at h
    cases hfin : (if !ctx0.contains k && !queue.isEmpty
        then cm.getLoop k ctx0 queue fuel else some ctx0) with
    | none => simp only [hfin] at h; exact Option.noConfusion h
    | some c =>
      simp only [hfin] at h
      have hcc : c.contains k = false ∧ OnChain cm ctx0 c := by
        by_cases hcond : (!ctx0.contains k && !queue.isEmpty) = true
        · rw [if_pos hcond] at hfin
          exact cm.getLoop_chain ctx0 k H fuel queue ctx0 c OnChain.refl
            (OnChain.ofResolve cm ctx0 ctx0 OnChain.refl queue hq) hfin
        · rw [if_neg hcond] at hfin
          injection hfin with hfin
          subst hfin
          exact ⟨hctxf, OnChain.refl⟩
      rw [if_neg (by rw [hcc.1]; exact Bool.noConfusion)] at h
      rw [Hdb c hcc.2] at h
      injection h with h
      exact h.symm

/-- Per-key resolution of a key visible in no chain context but present in
the store at every chain snapshot: the stored value is reported. -/
theorem ContextManager.getKey_resolves_chain (cm : ContextManager) (id : Nat)
    (ctx0 : Context) (k v : String) (fuel : Nat)
    (l : List (String × Option String))
    (hctx : cm.get_context id = some ctx0)
    (H : ∀ c, OnChain cm ctx0 c → c.contains k = false)
    (Hdb : ∀ c, OnChain cm ctx0 c → cm.database c.stateId k = some v)
    (h : cm.getKey id k fuel = some l) : l = [(k, some v)] := by
  unfold ContextManager.getKey at h
  simp only [hctx] at h
  have hctxf : ctx0.contains k = false := H ctx0 OnChain.refl
  cases hq : cm.resolveAll ctx0.baseContexts with
  | none => simp only [hq] at h; exact Option.noConfusion h
  | some queue =>
    simp only [hq] at h
    cases hfin : (if !ctx0.contains k && !queue.isEmpty
        then cm.getLoop k ctx0 queue fuel else some ctx0) with
    | none => simp only [hfin] at h; exact Option.noConfusion h
    | some c =>
      simp only [hfin] at h
      have hcc : c.contains k = false ∧ OnChain cm ctx0 c := by
        by_cases hcond : (!ctx0.contains k && !queue.isEmpty) = true
        · rw [if_pos hcond] at hfin
          exact cm.getLoop_chain ctx0 k H fuel queue ctx0 c OnChain.refl
            (OnChain.ofResolve cm ctx0 ctx0 OnChain.refl queue hq) hfin
        · rw [if_neg hcond] at hfin
          injection hfin with hfin
          subst hfin
          exact ⟨hctxf, OnChain.refl⟩
      rw [if_neg (by rw [hcc.1]; exact Bool.noConfusion)] at h
      rw [Hdb c hcc.2] at h
      injection h with h
      exact h.symm

/-- The accumulator of the `get` fold is contained in the final result. -/
theorem ContextManager.get_acc_sub (cm : ContextManager) (id : Nat)
    (fuel : Nat) :
    ∀ (lst : List String) (acc r : List (String × Option String)),
      lst.foldlM (fun acc k => (cm.getKey id k fuel).map (fun l => acc ++ l)) acc
        = some r →
      ∀ p ∈ acc, p ∈ r := by
  intro lst
  induction lst with
  | nil =>
    intro acc r h p hp
    rw [List.foldlM_nil] at h
    injection h with h
    subst h
    exact hp
  | cons a l ih =>
    intro acc r h p hp
    rw [List.foldlM_cons] at h
    cases hk : cm.getKey id a fuel with
    | none => rw [hk] at h; exact Option.noConfusion h
    | some la =>
      rw [hk] at h
      exact ih (acc ++ la) r h p (List.mem_append_left _ hp)

/-- Each processed key's per-key output is contained in the final result of
the `get` fold. -/
theorem ContextManager.get_key_sub (cm : ContextManager) (id : Nat)
    (fuel : Nat) :
    ∀ (lst : List String) (acc r : List (String × Option String)) (k : String),
      k ∈ lst →
      lst.foldlM (fun acc k => (cm.getKey id k fuel).map (fun l => acc ++ l)) acc
        = some r →
      ∃ l, cm.getKey id k fuel = some l ∧ ∀ p ∈ l, p ∈ r := by
  intro lst
  induction lst with
  | nil =>
    intro acc r k hk h
    exact absurd hk (List.not_mem_nil _)
  | cons a l ih =>
    intro acc r k hk h
    rw [List.foldlM_cons] at h
    cases hka : cm.getKey id a fuel with
    | none => rw [hka] at h; exact Option.noConfusion h
    | some la =>
      rw [hka] at h
      rcases List.mem_cons.mp hk with rfl | hk2
      · refine ⟨la, hka, ?_⟩
        intro p hp
        exact cm.get_acc_sub id fuel l (acc ++ la) r h p
          (List.mem_append_right _ hp)
      · exact ih (acc ++ la) r k hk2 h

/-- A key visible in no chain context and absent from the store at the
chain snapshots is omitted from the `get` output, whatever the key list. -/
theorem ContextManager.get_omits_chain (cm : ContextManager) (id : Nat)
    (ctx0 : Context) (k : String) (keys : List String) (fuel : Nat)
    (r : List (String × Option String))
    (hctx : cm.get_context id = some ctx0)
    (H : ∀ c, OnChain cm ctx0 c → c.contains k = false)
    (Hdb : ∀ c, OnChain cm ctx0 c → cm.database c.stateId k = none)
    (h : cm.get id keys fuel = some r) : k ∉ r.map Prod.fst := by
  intro hmem
  rw [List.mem_map] at hmem
  obtain ⟨p, hp, hfst⟩ := hmem
  unfold ContextManager.get at h
  rcases cm.get_mem id fuel keys.reverse [] r h p hp with hin | ⟨k2, l, hk2, hin⟩
  · exact absurd hin (List.not_mem_nil _)
  · rcases cm.getKey_shape id k2 fuel l hk2 with rfl | ⟨v, rfl⟩
    · exact absurd hin (List.not_mem_nil _)
    · rcases List.mem_singleton.mp hin with rfl
      have hk2k : k2 = k := hfst
      subst hk2k
      have hnil := cm.getKey_omits_chain id ctx0 k2 fuel _ hctx H Hdb hk2
      exact List.noConfusion hnil

/-- A key visible in no chain context but held by the store at the chain
snapshots is resolved from the store in the `get` output. -/
theorem ContextManager.get_resolves_chain (cm : ContextManager) (id : Nat)
    (ctx0 : Context) (k v : String) (keys : List String) (fuel : Nat)
    (r : List (String × Option String))
    (hctx : cm.get_context id = some ctx0)
    (H : ∀ c, OnChain cm ctx0 c → c.contains k = false)
    (Hdb : ∀ c, OnChain cm ctx0 c → cm.database c.stateId k = some v)
    (hkeys : k ∈ keys)
    (h : cm.get id keys fuel = some r) : (k, some v) ∈ r := by
  unfold ContextManager.get at h
  obtain ⟨l, hk, hsub⟩ := cm.get_key_sub id fuel keys.reverse [] r k
    (List.mem_reverse.mpr hkeys) h
  have hl := cm.getKey_resolves_chain id ctx0 k v fuel l hctx H Hdb hk
  subst hl
  exact hsub _ (List.mem_singleton.mpr rfl)

/-- Looking up a different id is unaffected by `setContext`. -/
theorem ContextManager.get_context_setContext_ne (cm : ContextManager)
    (id cid : Nat) (c : Context) (hne : cid ≠ id) :
    (cm.setContext id c).get_context cid = cm.get_context cid := by
  rcases cm with ⟨l, db⟩
  simp only [ContextManager.setContext, ContextManager.get_context]
  induction l with
  | nil => rfl
  | cons p t ih =>
    simp only [List.map_cons, List.find?_cons]
    by_cases hp : (p.1 == id) = true
    · rw [if_pos hp]
      have hp1 : p.1 = id := beq_iff_eq.mp hp
      have h2 : ((id, c).1 == cid) = false := by
        simp only [beq_eq_false_iff_ne, ne_eq]
        exact fun heq => hne heq.symm
      rw [h2]
      have h3 : (p.1 == cid) = false := by
        rw [hp1]
        exact h2
      rw [h3]
      exact ih
    · rw [if_neg hp]
      by_cases hpc : (p.1 == cid) = true
      · rw [hpc]
      · rw [Bool.eq_false_iff.mpr hpc]
        exact ih

/-- Chain membership after replacing the root context by one with the same
base contexts: a chain context of the updated manager is the updated root
or a chain context of the original manager. -/
theorem OnChain_setContext (cm : ContextManager) (id : Nat)
    (ctx0 ctx1 : Context)
    (hbase : ctx1.baseContexts = ctx0.baseContexts) :
    ∀ c, OnChain (cm.setContext id ctx1) ctx1 c →
      c = ctx1 ∨ OnChain cm ctx0 c := by
  intro c h
  induction h with
  | refl => exact Or.inl rfl
  | step c c2 cid hc hmem hget ih =>
    by_cases hcid : cid = id
    · subst hcid
      rw [ContextManager.get_context_setContext_same] at hget
      cases hg : cm.get_context cid with
      | none => rw [hg] at hget; exact Option.noConfusion hget
      | some cx =>
        rw [hg] at hget
        injection hget with hget
        exact Or.inl hget.symm
    · rw [ContextManager.get_context_setContext_ne cm id cid ctx1 hcid] at hget
      rcases ih with rfl | hoc
      · rw [hbase] at hmem
        exact Or.inr (OnChain.step ctx0 c2 cid OnChain.refl hmem hget)
      · exact Or.inr (OnChain.step c c2 cid hoc hmem hget)

/-- C2 (amended): the `get` output never carries `None` values, so contrary
to the claim's second half a key whose most recent change in a chain
context is a `Delete` is never reported as `(k, None)` (the behaviour the
in-source test `get_values` checks).  A key visible in no context of the
queried context's ancestor chain is omitted from the output of any `get`
whose store also lacks it at the chain's snapshots, and resolved from the
store when the store has it; the reference scenario yields
`[(K2, Some V2), (K1, Some V1)]`. -/
theorem claim_C2_get_omission :
    (∀ (cm : ContextManager) (id : Nat) (keys : List String) (fuel : Nat)
        (r : List (String × Option String)),
        cm.get id keys fuel = some r → ∀ p ∈ r, p.2.isSome = true) ∧
    (∀ (cm : ContextManager) (id : Nat) (ctx0 : Context) (k : String)
        (keys : List String) (fuel : Nat) (r : List (String × Option String)),
        cm.get_context id = some ctx0 →
        (∀ c, OnChain cm ctx0 c → c.contains k = false) →
        (∀ c, OnChain cm ctx0 c → cm.database c.stateId k = none) →
        cm.get id keys fuel = some r → k ∉ r.map Prod.fst) ∧
    (∀ (cm : ContextManager) (id : Nat) (ctx0 : Context) (k v : String)
        (keys : List String) (fuel : Nat) (r : List (String × Option String)),
        cm.get_context id = some ctx0 →
        (∀ c, OnChain cm ctx0 c → c.contains k = false) →
        (∀ c, OnChain cm ctx0 c → cm.database c.stateId k = some v) →
        k ∈ keys →
        cm.get id keys fuel = some r → (k, some v) ∈ r) ∧
    getScenario = some [("K2", some "V2"), ("K1", some "V1")] := by
  refine ⟨?_, ?_, ?_, by decide⟩
  · intro cm id keys fuel r h p hp
    rcases cm.get_mem id fuel keys.reverse [] r h p hp with hin | ⟨k, l, hk, hin⟩
    · exact absurd hin (List.not_mem_nil _)
    · rcases cm.getKey_shape id k fuel l hk with rfl | ⟨v, rfl⟩
      · exact absurd hin (List.not_mem_nil _)
      · rcases List.mem_singleton.mp hin with rfl
        rfl
  · intro cm id ctx0 k keys fuel r hctx H Hdb h
    exact cm.get_omits_chain id ctx0 k keys fuel r hctx H Hdb h
  · intro cm id ctx0 k v keys fuel r hctx H Hdb hkeys h
    exact cm.get_resolves_chain id ctx0 k v keys fuel r hctx H Hdb hkeys h

/-- The claim is false on the configuration of the in-source test
`get_values`: the context's entries for `K4` end in a `Delete`, the store
lacks `K4`, and the `get` output omits `K4` entirely instead of containing
`(K4, None)`. -/
theorem claim_C2_counterexample :
    (cmDel.get_context 0).map Context.stateChanges
        = some [.set "K4" "V4", .delete "K4"] ∧
    cmDel.get 0 ["K4"] 9 = some [] := by
  constructor
  · rfl
  · decide

/-- Instantiation of `claim_C2_get_omission` at concrete managers: the
deleted key `K4` of `cmDel` is omitted, and the deleted key `K1` of
`cmDelStore` is resolved from the store. -/
theorem claim_C2_get_omission_witness :
    (∀ p ∈ ([] : List (String × Option String)), p.2.isSome = true) ∧
    "K4" ∉ ([] : List (String × Option String)).map Prod.fst ∧
    ("K1", some "V1") ∈ [("K1", (some "V1" : Option String))] := by
  have hchainD : ∀ c, OnChain cmDel ⟨[], [.set "K4" "V4", .delete "K4"], "S"⟩ c →
      c = ⟨[], [.set "K4" "V4", .delete "K4"], "S"⟩ := by
    intro c h
    induction h with
    | refl => rfl
    | step c c2 cid hc hmem hget ih =>
      rw [ih] at hmem
      exact absurd hmem (List.not_mem_nil _)
  have hchainS : ∀ c, OnChain cmDelStore ⟨[], [.delete "K1"], "S0"⟩ c →
      c = ⟨[], [.delete "K1"], "S0"⟩ := by
    intro c h
    induction h with
    | refl => rfl
    | step c c2 cid hc hmem hget ih =>
      rw [ih] at hmem
      exact absurd hmem (List.not_mem_nil _)
  refine ⟨claim_C2_get_omission.1 cmDel 0 ["K4"] 9 [] (by decide), ?_, ?_⟩
  · exact claim_C2_get_omission.2.1 cmDel 0
      ⟨[], [.set "K4" "V4", .delete "K4"], "S"⟩ "K4" ["K4"] 9 [] rfl
      (fun c hc => by rw [hchainD c hc]; decide)
      (fun c hc => by rw [hchainD c hc]; rfl)
      (by decide)
  · exact claim_C2_get_omission.2.2.1 cmDelStore 0
      ⟨[], [.delete "K1"], "S0"⟩ "K1" "V1" ["K1"] 9 [("K1", some "V1")] rfl
      (fun c hc => by rw [hchainS c hc]; decide)
      (fun c hc => by rw [hchainS c hc]; decide)
      (by decide) (by decide)

theorem ContextManager.getLoop_nil (cm : ContextManager) (k : String)
    (c : Context) (f : Nat) : cm.getLoop k c [] f = some c := by
  cases f <;> rfl

/-- C3 (amended): when the key is found in no context, `get` falls back to
the state reader at the state id of the *final* context of the traversal —
the last context dequeued — not at the queried context's own state id.  In
particular, for a context whose only ancestor is a base context and a key
contained in neither, the reader is consulted at the ancestor's state id. -/
theorem claim_C3_get_fallback_state_id :
    ∀ (cm : ContextManager) (id aid : Nat) (k : String) (f : Nat)
      (ctx ctxA : Context),
      cm.get_context id = some ctx →
      ctx.baseContexts = [aid] →
      cm.get_context aid = some ctxA →
      ctxA.baseContexts = [] →
      ctx.contains k = false →
      ctxA.contains k = false →
      cm.get id [k] (f + 1)
        = some ((cm.database ctxA.stateId k).elim [] (fun v => [(k, some v)])) := by
  intro cm id aid k f ctx ctxA hctx hbase hA hAbase hc hcA
  have hres : cm.resolveAll ctx.baseContexts = some [ctxA] := by
    rw [hbase]
    unfold ContextManager.resolveAll
    rw [List.mapM_cons, hA]
    rfl
  have hresA : cm.resolveAll ctxA.baseContexts = some [] := by
    rw [hAbase]; rfl
  have hloop : cm.getLoop k ctx [ctxA] (f + 1) = some ctxA := by
    simp only [ContextManager.getLoop, hcA, Bool.false_eq_true, if_false, hresA]
    exact cm.getLoop_nil k ctxA f
  have hgk : cm.getKey id k (f + 1)
      = some ((cm.database ctxA.stateId k).elim [] (fun v => [(k, some v)])) := by
    unfold ContextManager.getKey
    simp only [hctx, hres]
    rw [if_pos (by rw [hc]; rfl)]
    rw [hloop]
    simp only [hcA, Bool.false_eq_true, if_false]
    cases hdb : cm.database ctxA.stateId k with
    | some v => rfl
    | none => rfl
  unfold ContextManager.get
  simp only [List.reverse_cons, List.reverse_nil, List.nil_append,
    List.foldlM_cons, List.foldlM_nil, hgk]
  rfl

/-- The claim as stated is false on `cmAncestor`: the key `K` appears in no
context, the queried context's own state id is "S2" and the reader has no
value for `K` at "S2" (so the claim predicts `K` is resolved — and then
omitted — through "S2"), yet `get` returns the value `V1` that the reader
holds at the ancestor's snapshot "S1". -/
theorem claim_C3_counterexample :
    (∀ c ∈ cmAncestor.contexts.map Prod.snd,
        ∀ sc ∈ c.stateChanges, sc.hasKey "K" = false) ∧
    (cmAncestor.get_context 1).map Context.stateId = some "S2" ∧
    cmAncestor.database "S2" "K" = none ∧
    cmAncestor.get 1 ["K"] 9 = some [("K", some "V1")] := by
  refine ⟨by decide, rfl, rfl, by decide⟩

/-- Instantiation of `claim_C3_get_fallback_state_id` on `cmAncestor`. -/
theorem claim_C3_get_fallback_state_id_witness :
    cmAncestor.get 1 ["K"] 9
      = some ((cmAncestor.database "S1" "K").elim [] (fun v => [("K", some v)])) :=
  claim_C3_get_fallback_state_id cmAncestor 1 0 "K" 8
    ⟨[0], [], "S2"⟩ ⟨[], [], "S1"⟩ rfl rfl rfl rfl rfl rfl

/-- C4: the keys of the `get` output are the input keys in reverse order,
restricted to the kept (non-omitted) ones; each per-key resolution
contributes either nothing or exactly one pair carrying that key. -/
theorem claim_C4_get_order :
    (∀ (cm : ContextManager) (id : Nat) (k : String) (fuel : Nat)
        (l : List (String × Option String)),
        cm.getKey id k fuel = some l → l = [] ∨ ∃ v, l = [(k, some v)]) ∧
    (∀ (cm : ContextManager) (id : Nat) (keys : List String) (fuel : Nat)
        (r : List (String × Option String)),
        cm.get id keys fuel = some r →
        r.map Prod.fst = keys.reverse.filter (fun k2 => cm.keyKept id k2 fuel)) := by
  constructor
  · intro cm id k fuel l h
    exact cm.getKey_shape id k fuel l h
  · have aux : ∀ (cm : ContextManager) (id : Nat) (fuel : Nat)
        (lst : List String) (acc r : List (String × Option String)),
        lst.foldlM (fun acc k => (cm.getKey id k fuel).map (fun l => acc ++ l)) acc
          = some r →
        r.map Prod.fst
          = acc.map Prod.fst ++ lst.filter (fun k2 => cm.keyKept id k2 fuel) := by
      intro cm id fuel lst
      induction lst with
      | nil =>
        intro acc r h
        rw [List.foldlM_nil] at h
        injection h with h
        subst h
        simp
      | cons a l ih =>
        intro acc r h
        rw [List.foldlM_cons] at h
        cases hk : cm.getKey id a fuel with
        | none => rw [hk] at h; exact Option.noConfusion h
        | some la =>
          rw [hk] at h
          have h2 := ih (acc ++ la) r h
          rcases cm.getKey_shape id a fuel la hk with rfl | ⟨v, rfl⟩
          · have hkeep : cm.keyKept id a fuel = false := by
              simp only [ContextManager.keyKept, hk]
            rw [List.filter_cons, hkeep]
            simpa using h2
          · have hkeep : cm.keyKept id a fuel = true := by
              simp only [ContextManager.keyKept, hk]
            rw [List.filter_cons, hkeep]
            simp only [List.map_append] at h2
            simpa using h2
    intro cm id keys fuel r h
    have h2 := aux cm id fuel keys.reverse [] r h
    simpa using h2

/-- Instantiation of `claim_C4_get_order` on `cmDel`. -/
theorem claim_C4_get_order_witness :
    List.map Prod.fst ([] : List (String × Option String))
      = (["K4"].reverse).filter (fun k2 => cmDel.keyKept 0 k2 9) :=
  claim_C4_get_order.2 cmDel 0 ["K4"] 9 [] (by decide)

/-- C5: deleting a key that is visible in no context of the queried
context's ancestor chain (the context itself and every context reachable
through `base_contexts`) and absent from the store at the chain's
snapshots returns `None`, appends a `Delete` record to the context, and
every subsequent `get` through that context omits the key from its output
(the key reads as deleted). -/
theorem claim_C5_delete_absent :
    ∀ (cm : ContextManager) (id : Nat) (k : String) (fuel : Nat)
      (out : ContextManager × Option String) (ctx0 : Context),
      cm.get_context id = some ctx0 →
      (∀ c, OnChain cm ctx0 c → c.contains k = false) →
      (∀ c, OnChain cm ctx0 c → cm.database c.stateId k = none) →
      cm.delete_state id k fuel = some out →
      out.2 = none ∧
      out.1.get_context id
        = some ⟨ctx0.baseContexts, ctx0.stateChanges ++ [.delete k], ctx0.stateId⟩ ∧
      (∀ (f2 : Nat) (keys : List String) (r : List (String × Option String)),
          out.1.get id keys f2 = some r → k ∉ r.map Prod.fst) := by
  intro cm id k fuel out ctx0 hctx H Hdb hdel
  have hg : ctx0.get_state k = none := by
    have h1 := H ctx0 OnChain.refl
    rw [Context.contains_eq_isSome] at h1
    cases hgs : ctx0.get_state k with
    | none => rfl
    | some v => rw [hgs] at h1; exact Bool.noConfusion h1
  simp only [ContextManager.delete_state, hctx, Context.delete_state, hg] at hdel
  have hcur : (cm.setContext id
      ⟨ctx0.baseContexts, ctx0.stateChanges ++ [.delete k], ctx0.stateId⟩).get_context id
      = some ⟨ctx0.baseContexts, ctx0.stateChanges ++ [.delete k], ctx0.stateId⟩ := by
    rw [ContextManager.get_context_setContext_same, hctx]; rfl
  simp only [hcur] at hdel
  set cm2 := cm.setContext id
    ⟨ctx0.baseContexts, ctx0.stateChanges ++ [.delete k], ctx0.stateId⟩ with hcm2
  set ctx1 : Context :=
    ⟨ctx0.baseContexts, ctx0.stateChanges ++ [.delete k], ctx0.stateId⟩ with hctx1
  have htrans : ∀ c, OnChain cm2 ctx1 c → c = ctx1 ∨ OnChain cm ctx0 c := by
    intro c hc
    exact OnChain_setContext cm id ctx0 ctx1 rfl c hc
  have H2 : ∀ c, OnChain cm2 ctx1 c → c.contains k = false := by
    intro c hc
    rcases htrans c hc with rfl | hoc
    · exact Context.contains_append_delete ctx0 k
    · exact H c hoc
  have Hdb2 : ∀ c, OnChain cm2 ctx1 c → cm2.database c.stateId k = none := by
    intro c hc
    rcases htrans c hc with rfl | hoc
    · exact Hdb ctx0 OnChain.refl
    · exact Hdb c hoc
  have hc1f : ctx1.contains k = false := Context.contains_append_delete ctx0 k
  cases hres : cm2.resolveAll ctx1.baseContexts with
  | none => simp only [hres] at hdel; exact Option.noConfusion hdel
  | some bases =>
    simp only [hres] at hdel
    cases hloop : cm2.deleteLoop k ctx1 (ctx1 :: bases) fuel with
    | none => simp only [hloop] at hdel; exact Option.noConfusion hdel
    | some containing =>
      simp only [hloop] at hdel
      have hcf : containing.contains k = false := by
        refine cm2.deleteLoop_chain ctx1 k H2 fuel (ctx1 :: bases) ctx1
          containing hc1f ?_ hloop
        intro c hcq
        rcases List.mem_cons.mp hcq with rfl | hcq
        · exact OnChain.refl
        · exact OnChain.ofResolve cm2 ctx1 ctx1 OnChain.refl bases hres c hcq
      rw [if_neg (by rw [hcf]; exact Bool.noConfusion)] at hdel
      have hdbroot : cm2.database ctx1.stateId k = none := Hdb ctx0 OnChain.refl
      rw [hdbroot] at hdel
      injection hdel with hdel
      subst hdel
      refine ⟨rfl, hcur, ?_⟩
      intro f2 keys r hget
      exact cm2.get_omits_chain id ctx1 k keys f2 r hcur H2 Hdb2 hget

/-- Instantiation of `claim_C5_delete_absent` on `cmUnit`. -/
theorem claim_C5_delete_absent_witness :
    (cmUnit.setContext 0 ⟨[], [.delete "K"], "S"⟩, (none : Option String)).2 = none ∧
    "K" ∉ ([] : List (String × Option String)).map Prod.fst := by
  have hchain : ∀ c, OnChain cmUnit ⟨[], [], "S"⟩ c → c = ⟨[], [], "S"⟩ := by
    intro c h
    induction h with
    | refl => rfl
    | step c c2 cid hc hmem hget ih =>
      rw [ih] at hmem
      exact absurd hmem (List.not_mem_nil _)
  have h := claim_C5_delete_absent cmUnit 0 "K" 3
    (cmUnit.setContext 0 ⟨[], [.delete "K"], "S"⟩, none) ⟨[], [], "S"⟩
    rfl
    (fun c hc => by rw [hchain c hc]; decide)
    (fun c hc => by rw [hchain c hc]; rfl)
    rfl
  exact ⟨h.1, h.2.2 3 ["K"] [] (by decide)⟩


theorem SerialScheduler.applyOp_finalized (s : SerialScheduler) (op : SchedOp)
    (h : s.shared.finalized = true) : (s.applyOp op).shared.finalized = true := by
  cases op with
  | addBatch b =>
    simp only [SerialScheduler.applyOp, SerialScheduler.add_batch, h, if_true]
  | cancelOp =>
    simpa [SerialScheduler.applyOp, SerialScheduler.cancel,
      Shared.drainUnscheduledBatches] using h
  | finalizeOp => rfl
  | takeIterator =>
    by_cases hp : s.taskIteratorPresent = true <;>
      simp [SerialScheduler.applyOp, SerialScheduler.take_task_iterator, hp, h]
  | activate =>
    cases hq : s.shared.unscheduled with
    | nil => simpa [SerialScheduler.applyOp, SerialScheduler.coreActivate, hq] using h
    | cons b rest =>
      simpa [SerialScheduler.applyOp, SerialScheduler.coreActivate, hq] using h

theorem SerialScheduler.runOps_finalized :
    ∀ (ops : List SchedOp) (s : SerialScheduler),
      s.shared.finalized = true → (s.runOps ops).shared.finalized = true := by
  intro ops
  induction ops with
  | nil => intro s h; exact h
  | cons op ops ih => intro s h; exact ih _ (s.applyOp_finalized op h)

theorem SerialScheduler.applyOp_seen_mem (s : SerialScheduler) (op : SchedOp)
    (sg : String) (h : sg ∈ s.shared.seenBatchIds) :
    sg ∈ (s.applyOp op).shared.seenBatchIds := by
  cases op with
  | addBatch b =>
    simp only [SerialScheduler.applyOp, SerialScheduler.add_batch]
    by_cases hf : s.shared.finalized = true
    · simpa [hf] using h
    · by_cases hd : s.shared.batchAlreadyQueued b = true
      · simpa [hf, hd] using h
      · simp only [hf, hd, Bool.false_eq_true, if_false]
        exact List.mem_append_left _ h
  | cancelOp =>
    simpa [SerialScheduler.applyOp, SerialScheduler.cancel,
      Shared.drainUnscheduledBatches] using h
  | finalizeOp => simpa [SerialScheduler.applyOp, SerialScheduler.finalize] using h
  | takeIterator =>
    by_cases hp : s.taskIteratorPresent = true <;>
      simpa [SerialScheduler.applyOp, SerialScheduler.take_task_iterator, hp] using h
  | activate =>
    cases hq : s.shared.unscheduled with
    | nil => simpa [SerialScheduler.applyOp, SerialScheduler.coreActivate, hq] using h
    | cons b rest =>
      simpa [SerialScheduler.applyOp, SerialScheduler.coreActivate, hq] using h

theorem SerialScheduler.runOps_seen_mem :
    ∀ (ops : List SchedOp) (s : SerialScheduler) (sg : String),
      sg ∈ s.shared.seenBatchIds → sg ∈ (s.runOps ops).shared.seenBatchIds := by
  intro ops
  induction ops with
  | nil => intro s sg h; exact h
  | cons op ops ih => intro s sg h; exact ih _ _ (s.applyOp_seen_mem op sg h)

theorem SerialScheduler.applyOp_iterator_gone (s : SerialScheduler) (op : SchedOp)
    (h : s.taskIteratorPresent = false) :
    (s.applyOp op).taskIteratorPresent = false := by
  cases op with
  | addBatch b =>
    simp only [SerialScheduler.applyOp, SerialScheduler.add_batch]
    by_cases hf : s.shared.finalized = true
    · simpa [hf] using h
    · by_cases hd : s.shared.batchAlreadyQueued b = true
      · simpa [hf, hd] using h
      · simpa [hf, hd] using h
  | cancelOp =>
    simpa [SerialScheduler.applyOp, SerialScheduler.cancel,
      Shared.drainUnscheduledBatches] using h
  | finalizeOp => simpa [SerialScheduler.applyOp, SerialScheduler.finalize] using h
  | takeIterator =>
    by_cases hp : s.taskIteratorPresent = true <;>
      simp [SerialScheduler.applyOp, SerialScheduler.take_task_iterator, hp, h]
  | activate =>
    cases hq : s.shared.unscheduled with
    | nil => simpa [SerialScheduler.applyOp, SerialScheduler.coreActivate, hq] using h
    | cons b rest =>
      simpa [SerialScheduler.applyOp, SerialScheduler.coreActivate, hq] using h

theorem SerialScheduler.runOps_iterator_gone :
    ∀ (ops : List SchedOp) (s : SerialScheduler),
      s.taskIteratorPresent = false → (s.runOps ops).taskIteratorPresent = false := by
  intro ops
  induction ops with
  | nil => intro s h; exact h
  | cons op ops ih => intro s h; exact ih _ (s.applyOp_iterator_gone op h)

theorem SerialScheduler.applyOp_iterator_kept (s : SerialScheduler) (op : SchedOp)
    (hop : op ≠ SchedOp.takeIterator) :
    (s.applyOp op).taskIteratorPresent = s.taskIteratorPresent := by
  cases op with
  | addBatch b =>
    simp only [SerialScheduler.applyOp, SerialScheduler.add_batch]
    by_cases hf : s.shared.finalized = true
    · simp [hf]
    · by_cases hd : s.shared.batchAlreadyQueued b = true
      · simp [hf, hd]
      · simp [hf, hd]
  | cancelOp =>
    simp [SerialScheduler.applyOp, SerialScheduler.cancel,
      Shared.drainUnscheduledBatches]
  | finalizeOp => rfl
  | takeIterator => exact absurd rfl hop
  | activate =>
    cases hq : s.shared.unscheduled with
    | nil => simp [SerialScheduler.applyOp, SerialScheduler.coreActivate, hq]
    | cons b rest => simp [SerialScheduler.applyOp, SerialScheduler.coreActivate, hq]

theorem SerialScheduler.runOps_iterator_kept :
    ∀ (ops : List SchedOp) (s : SerialScheduler), SchedOp.takeIterator ∉ ops →
      (s.runOps ops).taskIteratorPresent = s.taskIteratorPresent := by
  intro ops
  induction ops with
  | nil => intro s _; rfl
  | cons op ops ih =>
    intro s h
    rw [SerialScheduler.runOps,
      ih _ (fun h2 => h (List.mem_cons_of_mem _ h2)),
      s.applyOp_iterator_kept op (fun h2 => h (h2 ▸ List.mem_cons_self _ _))]

theorem SerialScheduler.runOps_queue :
    ∀ (ops : List SchedOp) (s : SerialScheduler), SchedOp.cancelOp ∉ ops →
      (s.runOps ops).shared.unscheduled
        = (s.shared.unscheduled ++ s.addsOf ops).drop (s.activationsOf ops) := by
  intro ops
  induction ops with
  | nil =>
    intro s _
    simp [SerialScheduler.runOps, SerialScheduler.addsOf,
      SerialScheduler.activationsOf]
  | cons op ops ih =>
    intro s hnc
    have hnc2 : SchedOp.cancelOp ∉ ops := fun h => hnc (List.mem_cons_of_mem _ h)
    cases op with
    | addBatch b =>
      rw [SerialScheduler.runOps]
      simp only [SerialScheduler.addsOf, SerialScheduler.activationsOf]
      by_cases hcond : (s.shared.finalized || s.shared.batchAlreadyQueued b) = true
      · rw [if_pos hcond]
        have happ : s.applyOp (SchedOp.addBatch b) = s := by
          rcases Bool.or_eq_true_iff.mp hcond with hf | hd
          · simp [SerialScheduler.applyOp, SerialScheduler.add_batch, hf]
          · by_cases hf : s.shared.finalized = true
            · simp [SerialScheduler.applyOp, SerialScheduler.add_batch, hf]
            · simp [SerialScheduler.applyOp, SerialScheduler.add_batch, hf, hd]
        rw [happ, ih s hnc2]
        simp
      · rw [if_neg hcond]
        obtain ⟨hf, hd⟩ := Bool.or_eq_false_iff.mp (Bool.eq_false_iff.mpr hcond)
        rw [ih _ hnc2]
        have hsh : (s.applyOp (SchedOp.addBatch b)).shared.unscheduled
            = s.shared.unscheduled ++ [b] := by
          simp [SerialScheduler.applyOp, SerialScheduler.add_batch, hf, hd,
            Shared.addUnscheduledBatch]
        rw [hsh]
        simp [List.append_assoc]
    | cancelOp => exact absurd (List.mem_cons_self _ _) hnc
    | finalizeOp =>
      rw [SerialScheduler.runOps]
      simp only [SerialScheduler.addsOf, SerialScheduler.activationsOf]
      rw [ih _ hnc2]
      simp [SerialScheduler.applyOp, SerialScheduler.finalize]
    | takeIterator =>
      rw [SerialScheduler.runOps]
      simp only [SerialScheduler.addsOf, SerialScheduler.activationsOf]
      rw [ih _ hnc2]
      have hsh : (s.applyOp SchedOp.takeIterator).shared = s.shared := by
        by_cases hp : s.taskIteratorPresent = true <;>
          simp [SerialScheduler.applyOp, SerialScheduler.take_task_iterator, hp]
      rw [hsh]
      simp
    | activate =>
      rw [SerialScheduler.runOps]
      simp only [SerialScheduler.addsOf, SerialScheduler.activationsOf]
      cases hq : s.shared.unscheduled with
      | nil =>
        have happ : s.applyOp SchedOp.activate = s := by
          simp [SerialScheduler.applyOp, SerialScheduler.coreActivate, hq]
        rw [happ, ih s hnc2]
        simp [hq]
      | cons b rest =>
        have happ : (s.applyOp SchedOp.activate).shared.unscheduled = rest := by
          simp [SerialScheduler.applyOp, SerialScheduler.coreActivate, hq]
        have hsame : ∀ ops2, (s.applyOp SchedOp.activate).addsOf ops2
            = (s.applyOp SchedOp.activate).addsOf ops2 := fun _ => rfl
        rw [ih _ hnc2, happ]
        simp only [hq, List.isEmpty_cons, Bool.false_eq_true, if_false,
          List.cons_append]
        rw [Nat.add_comm 1 _, List.drop_succ_cons]
        simp

/-- C7: once `finalize` has been called, `add_batch` fails with
`SchedulerFinalized` after any sequence of further client operations. -/
theorem claim_C7_add_batch_after_finalize :
    ∀ (s : SerialScheduler) (ops : List SchedOp) (b : BatchPair),
      ((s.finalize.runOps ops).add_batch b).1
        = .error SchedulerError.schedulerFinalized := by
  intro s ops b
  have hf : (s.finalize.runOps ops).shared.finalized = true :=
    SerialScheduler.runOps_finalized ops s.finalize rfl
  simp [SerialScheduler.add_batch, hf]

/-- C8: a second `add_batch` of an already-seen header signature fails with
`DuplicateBatch` after any further operations (cancels included) while the
scheduler is not finalized; `cancel` returns exactly the queued batches,
empties the queue and leaves `seen_batch_ids` untouched; and, starting
from a drained queue, the batches a later `cancel` returns are exactly the
successfully added ones minus those already made active, in order. -/
theorem claim_C8_duplicate_and_cancel :
    (∀ (s : SerialScheduler) (b b2 : BatchPair) (ops : List SchedOp),
        (s.add_batch b).1 = .ok () →
        b2.headerSignature = b.headerSignature →
        ((s.add_batch b).2.runOps ops).shared.finalized = false →
        (((s.add_batch b).2.runOps ops).add_batch b2).1
          = .error (.duplicateBatch b.headerSignature)) ∧
    (∀ s : SerialScheduler,
        (s.cancel).1 = s.shared.unscheduled ∧
        (s.cancel).2.shared.seenBatchIds = s.shared.seenBatchIds ∧
        (s.cancel).2.shared.unscheduled = []) ∧
    (∀ (s : SerialScheduler) (ops : List SchedOp),
        s.shared.unscheduled = [] → SchedOp.cancelOp ∉ ops →
        ((s.runOps ops).cancel).1 = (s.addsOf ops).drop (s.activationsOf ops)) := by
  refine ⟨?_, ?_, ?_⟩
  · intro s b b2 ops hok hsig hfin
    have hseen : b.headerSignature ∈ (s.add_batch b).2.shared.seenBatchIds := by
      simp only [SerialScheduler.add_batch] at hok ⊢
      by_cases hf : s.shared.finalized = true
      · rw [if_pos hf] at hok; exact Except.noConfusion hok
      · rw [if_neg hf] at hok ⊢
        by_cases hd : s.shared.batchAlreadyQueued b = true
        · rw [if_pos hd] at hok; exact Except.noConfusion hok
        · rw [if_neg hd] at hok ⊢
          simp [Shared.addUnscheduledBatch]
    have hseen2 : b.headerSignature
        ∈ ((s.add_batch b).2.runOps ops).shared.seenBatchIds :=
      SerialScheduler.runOps_seen_mem ops _ _ hseen
    have hq : ((s.add_batch b).2.runOps ops).shared.batchAlreadyQueued b2 = true := by
      simp only [Shared.batchAlreadyQueued, hsig]
      exact List.elem_eq_true_of_mem hseen2
    have hfin2 : ¬ ((s.add_batch b).2.runOps ops).shared.finalized = true := by
      rw [hfin]; exact Bool.noConfusion
    rw [SerialScheduler.add_batch, if_neg hfin2, if_pos hq, hsig]
  · intro s
    exact ⟨rfl, rfl, rfl⟩
  · intro s ops hq hnc
    have h := SerialScheduler.runOps_queue ops s hnc
    rw [hq] at h
    simp only [List.nil_append] at h
    simpa [SerialScheduler.cancel, Shared.drainUnscheduledBatches] using h

/-- Instantiation of `claim_C8_duplicate_and_cancel`: adding `B1`, then
cancelling, then adding a batch with signature `B1` again still fails with
`DuplicateBatch`. -/
theorem claim_C8_duplicate_and_cancel_witness :
    (((SerialScheduler.new.add_batch ⟨"B1", []⟩).2.runOps
        [SchedOp.cancelOp]).add_batch ⟨"B1", []⟩).1
      = .error (.duplicateBatch "B1") :=
  claim_C8_duplicate_and_cancel.1 SerialScheduler.new ⟨"B1", []⟩ ⟨"B1", []⟩
    [SchedOp.cancelOp] rfl rfl rfl

/-- C9: `take_task_iterator` succeeds on its first call (also after any
operations that do not take the iterator) and fails with `NoTaskIterator`
on every call made once the iterator is gone. -/
theorem claim_C9_take_task_iterator :
    (SerialScheduler.new.take_task_iterator).1 = .ok () ∧
    (∀ ops : List SchedOp, SchedOp.takeIterator ∉ ops →
      ((SerialScheduler.new.runOps ops).take_task_iterator).1 = .ok ()) ∧
    (∀ (s : SerialScheduler) (ops : List SchedOp),
      s.taskIteratorPresent = false →
      ((s.runOps ops).take_task_iterator).1
        = .error SchedulerError.noTaskIterator) := by
  refine ⟨rfl, ?_, ?_⟩
  · intro ops hops
    have h := SerialScheduler.runOps_iterator_kept ops SerialScheduler.new hops
    rw [SerialScheduler.take_task_iterator, if_pos (by rw [h]; rfl)]
  · intro s ops h
    have h2 := SerialScheduler.runOps_iterator_gone ops s h
    rw [SerialScheduler.take_task_iterator,
      if_neg (by rw [h2]; exact Bool.noConfusion)]

/-- Instantiation of `claim_C9_take_task_iterator`: the second call fails. -/
theorem claim_C9_take_task_iterator_witness :
    (((SerialScheduler.new.take_task_iterator).2.runOps []).take_task_iterator).1
      = .error SchedulerError.noTaskIterator :=
  claim_C9_take_task_iterator.2.2 (SerialScheduler.new.take_task_iterator).2 [] rfl

/-- C10: when `add_batch` fails, the scheduler state is unchanged — the
batch is not queued, its signature is not recorded, and no `BatchAdded`
message is sent; and the finalized check precedes the duplicate check, so
after `finalize` even an already-seen batch yields `SchedulerFinalized`. -/
theorem claim_C10_add_batch_error :
    (∀ (s : SerialScheduler) (b : BatchPair) (e : SchedulerError),
        (s.add_batch b).1 = .error e → (s.add_batch b).2 = s) ∧
    (∀ (s : SerialScheduler) (b : BatchPair),
        s.shared.finalized = true →
        (s.add_batch b).1 = .error SchedulerError.schedulerFinalized) := by
  constructor
  · intro s b e herr
    simp only [SerialScheduler.add_batch] at herr ⊢
    by_cases hf : s.shared.finalized = true
    · rw [if_pos hf]
    · rw [if_neg hf] at herr ⊢
      by_cases hd : s.shared.batchAlreadyQueued b = true
      · rw [if_pos hd]
      · rw [if_neg hd] at herr
        exact Except.noConfusion herr
  · intro s b hf
    simp [SerialScheduler.add_batch, hf]

/-- Instantiation of `claim_C10_add_batch_error`: a batch whose signature
was already submitted, added again after `finalize`, yields
`SchedulerFinalized` (not `DuplicateBatch`) and leaves the state
unchanged. -/
theorem claim_C10_add_batch_error_witness :
    ((((SerialScheduler.new.add_batch ⟨"B1", []⟩).2.finalize).add_batch
        ⟨"B1", []⟩).1 = .error SchedulerError.schedulerFinalized) ∧
    ((((SerialScheduler.new.add_batch ⟨"B1", []⟩).2.finalize).add_batch
        ⟨"B1", []⟩).2 = (SerialScheduler.new.add_batch ⟨"B1", []⟩).2.finalize) :=
  ⟨claim_C10_add_batch_error.2 (SerialScheduler.new.add_batch ⟨"B1", []⟩).2.finalize
      ⟨"B1", []⟩ rfl,
   claim_C10_add_batch_error.1 (SerialScheduler.new.add_batch ⟨"B1", []⟩).2.finalize
      ⟨"B1", []⟩ SchedulerError.schedulerFinalized rfl⟩


theorem taskFree_append {es1 es2 : List CoreEvent} (h1 : taskFree es1)
    (h2 : taskFree es2) : taskFree (es1 ++ es2) := by
  intro e he
  rcases List.mem_append.mp he with he | he
  · exact h1 e he
  · exact h2 e he

theorem taskFree_notify (t : String) : taskFree [CoreEvent.notifyProcessed t] := by
  intro e he
  rcases List.mem_singleton.mp he with rfl
  rfl

theorem evOption_eq_none {f : CoreEvent → Option α} {e : CoreEvent}
    (hf : ∀ sg t, f (.task sg t) = none → True) : True := trivial

theorem taskSigs_append (tr es : List CoreEvent) :
    taskSigs (tr ++ es) = taskSigs tr ++ taskSigs es :=
  List.filterMap_append tr es _

theorem taskSigs_eq_nil (es : List CoreEvent) (h : taskFree es) :
    taskSigs es = [] := by
  rw [taskSigs, List.filterMap_eq_nil_iff]
  intro e he
  cases e with
  | task sg t => exact absurd (h _ he) (by simp [CoreEvent.isTask])
  | notifyProcessed t => rfl
  | batchResult sg ok => rfl
  | endOfStream => rfl
  | errorUnexpected t => rfl

theorem taskSigs_task (sg t : String) :
    taskSigs [CoreEvent.task sg t] = [sg] := rfl

theorem tasksOf_append (sg : String) (tr es : List CoreEvent) :
    tasksOf sg (tr ++ es) = tasksOf sg tr ++ tasksOf sg es :=
  List.filterMap_append tr es _

theorem tasksOf_eq_nil (sg : String) (es : List CoreEvent) (h : taskFree es) :
    tasksOf sg es = [] := by
  rw [tasksOf, List.filterMap_eq_nil_iff]
  intro e he
  cases e with
  | task sg2 t => exact absurd (h _ he) (by simp [CoreEvent.isTask])
  | notifyProcessed t => rfl
  | batchResult sg2 ok => rfl
  | endOfStream => rfl
  | errorUnexpected t => rfl

theorem tasksOf_task_same (sg t : String) :
    tasksOf sg [CoreEvent.task sg t] = [t] := by
  simp [tasksOf, List.filterMap]

theorem tasksOf_task_other (sg sg2 t : String) (h : sg2 ≠ sg) :
    tasksOf sg [CoreEvent.task sg2 t] = [] := by
  simp [tasksOf, List.filterMap, h]

theorem findSome?_append_none {α : Type} {f : CoreEvent → Option α} :
    ∀ (l2 l1 : List CoreEvent), (∀ e ∈ l2, f e = none) →
      (l2 ++ l1).findSome? f = l1.findSome? f := by
  intro l2
  induction l2 with
  | nil => intro l1 _; rfl
  | cons x t ih =>
    intro l1 h
    rw [List.cons_append, List.findSome?_cons, h x (List.mem_cons_self _ _)]
    exact ih l1 (fun e he => h e (List.mem_cons_of_mem _ he))

theorem lastTask_fn_none (e : CoreEvent) (h : e.isTask = false) :
    (fun e => match e with
      | CoreEvent.task sg t => some (sg, t)
      | _ => none) e = none := by
  cases e with
  | task sg t => exact absurd h (by simp [CoreEvent.isTask])
  | notifyProcessed t => rfl
  | batchResult sg ok => rfl
  | endOfStream => rfl
  | errorUnexpected t => rfl

theorem lastTask_append_taskFree (tr es : List CoreEvent) (h : taskFree es) :
    lastTask (tr ++ es) = lastTask tr := by
  rw [lastTask, lastTask, List.reverse_append]
  exact findSome?_append_none es.reverse tr.reverse
    (fun e he => lastTask_fn_none e (h e (List.mem_reverse.mp he)))

theorem lastTask_concat_task (A : List CoreEvent) (sg t : String) :
    lastTask (A ++ [CoreEvent.task sg t]) = some (sg, t) := by
  rw [lastTask, List.reverse_append]
  rfl

theorem lastTask_of_decomp (tr pre mid : List CoreEvent) (sg t : String)
    (h : tr = pre ++ [CoreEvent.task sg t] ++ mid) (hmid : taskFree mid) :
    lastTask tr = some (sg, t) := by
  subst h
  rw [lastTask_append_taskFree (pre ++ [CoreEvent.task sg t]) mid hmid]
  exact lastTask_concat_task pre sg t

theorem lastTask_sig_mem (tr : List CoreEvent) (sg t : String)
    (h : lastTask tr = some (sg, t)) : sg ∈ taskSigs tr := by
  rw [lastTask] at h
  obtain ⟨e, he, hfe⟩ := List.exists_of_findSome?_eq_some h
  cases e with
  | task sg2 t2 =>
    have h2 : sg2 = sg := by
      injection hfe with hfe
      exact congrArg Prod.fst hfe
    rw [taskSigs, List.mem_filterMap]
    exact ⟨CoreEvent.task sg2 t2, List.mem_reverse.mp he, by simp [h2]⟩
  | notifyProcessed t2 => exact Option.noConfusion hfe
  | batchResult sg2 ok => exact Option.noConfusion hfe
  | endOfStream => exact Option.noConfusion hfe
  | errorUnexpected t2 => exact Option.noConfusion hfe

theorem NotifySince_append_taskFree (tr es : List CoreEvent) (t1 : String)
    (h : NotifySince tr t1) (hes : taskFree es) : NotifySince (tr ++ es) t1 := by
  obtain ⟨A, B, hab, hB, hmem⟩ := h
  exact ⟨A, B ++ es, by rw [hab, List.append_assoc], taskFree_append hB hes,
    List.mem_append_left _ hmem⟩

/-- Locating a task event inside an append whose right part is task-free:
it lies in the left part. -/
theorem task_in_left {l es pre mid : List CoreEvent} {sg t : String}
    (h : l ++ es = pre ++ [CoreEvent.task sg t] ++ mid) (hes : taskFree es) :
    ∃ mid0, l = pre ++ [CoreEvent.task sg t] ++ mid0 ∧ mid = mid0 ++ es := by
  rcases List.append_eq_append_iff.mp h with ⟨a2, ha1, ha2⟩ | ⟨c2, hc1, hc2⟩
  · rcases List.eq_nil_or_concat a2 with rfl | ⟨a0, y, rfl⟩
    · refine ⟨[], ?_, ?_⟩
      · rw [List.append_nil] at ha1
        rw [List.append_nil]
        exact ha1.symm
      · rw [List.nil_append] at ha2
        rw [List.nil_append]
        exact ha2.symm
    · exfalso
      rw [List.concat_eq_append, ← List.append_assoc] at ha1
      obtain ⟨_, hy⟩ := List.append_inj' ha1 rfl
      have hy2 : CoreEvent.task sg t = y := by simpa using hy
      have hmem : y ∈ es := by
        rw [ha2, List.concat_eq_append]
        exact List.mem_append_left _ (List.mem_append_right _
          (List.mem_singleton.mpr rfl))
      have hfree := hes y hmem
      rw [← hy2] at hfree
      exact absurd hfree (by simp [CoreEvent.isTask])
  · exact ⟨c2, by rw [hc1, List.append_assoc], hc2⟩

/-- Appending task-free events preserves the C6 ordering property. -/
theorem TraceOk_append_taskFree (tr es : List CoreEvent) (hQ : TraceOk tr)
    (hes : taskFree es) : TraceOk (tr ++ es) := by
  intro pre mid post sg t1 t2 heq hmid
  have heq2 : tr ++ es
      = (pre ++ [CoreEvent.task sg t1] ++ mid) ++ [CoreEvent.task sg t2] ++ post := by
    rw [heq]
  obtain ⟨post0, hl, _⟩ := task_in_left heq2 hes
  exact hQ pre mid post0 sg t1 t2 hl hmid

/-- Appending one task event preserves the ordering property provided the
notification for the previous task of the same batch was processed after
that task. -/
theorem TraceOk_snoc_task (tr : List CoreEvent) (sg t2' : String)
    (hQ : TraceOk tr)
    (hN : ∀ t1, lastTask tr = some (sg, t1) → NotifySince tr t1) :
    TraceOk (tr ++ [CoreEvent.task sg t2']) := by
  intro pre mid post sg' t1 t2 heq hmid
  rcases List.eq_nil_or_concat post with rfl | ⟨post0, y, rfl⟩
  · -- the appended task is the second task of the decomposition
    have heq2 : tr ++ [CoreEvent.task sg t2']
        = (pre ++ [CoreEvent.task sg' t1] ++ mid) ++ [CoreEvent.task sg' t2] := by
      rw [heq]
      simp [List.append_assoc]
    obtain ⟨htr, hy⟩ := List.append_inj' heq2 rfl
    have hsg2 : sg = sg' := by
      have h2 : sg = sg' ∧ t2' = t2 := by simpa using hy
      exact h2.1
    have hlast : lastTask tr = some (sg, t1) := by
      rw [hsg2]
      exact lastTask_of_decomp tr pre mid sg' t1 htr hmid
    obtain ⟨A, B, hab, hB, hmem⟩ := hN t1 hlast
    have hd : pre ++ [CoreEvent.task sg' t1] ++ mid = A ++ B := by
      rw [← htr]
      exact hab
    rcases List.append_eq_append_iff.mp hd with ⟨a2, ha1, ha2⟩ | ⟨c2, hc1, hc2⟩
    · rw [ha2]
      exact List.mem_append_right _ hmem
    · rcases List.eq_nil_or_concat c2 with rfl | ⟨c0, y2, rfl⟩
      · rw [List.nil_append] at hc2
        rw [← hc2]
        exact hmem
      · exfalso
        rw [List.concat_eq_append, ← List.append_assoc] at hc1
        obtain ⟨_, hy2⟩ := List.append_inj' hc1 rfl
        have hy3 : CoreEvent.task sg' t1 = y2 := by simpa using hy2
        have hmem2 : y2 ∈ B := by
          rw [hc2, List.concat_eq_append]
          exact List.mem_append_left _ (List.mem_append_right _
            (List.mem_singleton.mpr rfl))
        have hfree := hB y2 hmem2
        rw [← hy3] at hfree
        exact absurd hfree (by simp [CoreEvent.isTask])
  · -- the decomposition lies entirely inside tr
    have heq2 : tr ++ [CoreEvent.task sg t2']
        = (pre ++ [CoreEvent.task sg' t1] ++ mid ++ [CoreEvent.task sg' t2] ++ post0)
          ++ [y] := by
      rw [heq]
      simp [List.append_assoc, List.concat_eq_append]
    obtain ⟨htr, _⟩ := List.append_inj' heq2 rfl
    exact hQ pre mid post0 sg' t1 t2 htr hmid


theorem progressAux_idle (flag don : Bool) :
    progressAux [] flag don none
      = if flag && !don then (⟨[], flag, true, none⟩, [.endOfStream])
        else (⟨[], flag, don, none⟩, []) := by
  rw [progressAux.eq_def]

theorem progressAux_activate (b : BatchPair) (rest : List BatchPair)
    (flag don : Bool) :
    progressAux (b :: rest) flag don none
      = progressAux rest flag don (some ⟨b, b.txns, none, [], false⟩) := by
  rw [progressAux.eq_def]

theorem progressAux_current (q : List BatchPair) (flag don : Bool)
    (bb : BatchPair) (rem : List String) (c : String) (res : List String)
    (inv : Bool) :
    progressAux q flag don (some ⟨bb, rem, some c, res, inv⟩)
      = (⟨q, flag, don, some ⟨bb, rem, some c, res, inv⟩⟩, []) := by
  rw [progressAux.eq_def]

theorem progressAux_dispatch (q : List BatchPair) (flag don : Bool)
    (bb : BatchPair) (t : String) (ts res : List String) :
    progressAux q flag don (some ⟨bb, t :: ts, none, res, false⟩)
      = (⟨q, flag, don, some ⟨bb, ts, some t, res, false⟩⟩,
         [.task bb.headerSignature t]) := by
  rw [progressAux.eq_def]

theorem progressAux_finish_nil (q : List BatchPair) (flag don : Bool)
    (bb : BatchPair) (res : List String) (inv : Bool) :
    progressAux q flag don (some ⟨bb, [], none, res, inv⟩)
      = ((progressAux q flag don none).1,
         .batchResult bb.headerSignature (!inv)
           :: (progressAux q flag don none).2) := by
  rw [progressAux.eq_def]

theorem progressAux_finish_invalid (q : List BatchPair) (flag don : Bool)
    (bb : BatchPair) (t : String) (ts res : List String) :
    progressAux q flag don (some ⟨bb, t :: ts, none, res, true⟩)
      = ((progressAux q flag don none).1,
         .batchResult bb.headerSignature false
           :: (progressAux q flag don none).2) := by
  rw [progressAux.eq_def]
  rfl

theorem taskFree_single (e : CoreEvent) (h : e.isTask = false) : taskFree [e] := by
  intro e2 he2
  rcases List.mem_singleton.mp he2 with rfl
  exact h

theorem tasksOf_nil_of_not_sig (sg : String) (tr : List CoreEvent)
    (h : sg ∉ taskSigs tr) : tasksOf sg tr = [] := by
  rw [tasksOf, List.filterMap_eq_nil_iff]
  intro e he
  cases e with
  | task sg2 t =>
    by_cases hbeq : (sg2 == sg) = true
    · exfalso
      apply h
      rw [taskSigs, List.mem_filterMap]
      exact ⟨CoreEvent.task sg2 t, he, by simp [beq_iff_eq.mp hbeq]⟩
    · simp only []
      simp [hbeq]
  | notifyProcessed t => rfl
  | batchResult sg2 ok => rfl
  | endOfStream => rfl
  | errorUnexpected t => rfl

theorem mem_addedSigs_of_mem (b : BatchPair) :
    ∀ msgs : List CoreMessage, CoreMessage.batchAdded b ∈ msgs →
      b.headerSignature ∈ addedSigs msgs := by
  intro msgs
  induction msgs with
  | nil => intro h; cases h
  | cons m ms ih =>
    intro h
    rcases List.mem_cons.mp h with rfl | h2
    · rw [addedSigs]
      exact List.mem_append_left _ (List.mem_singleton.mpr rfl)
    · rw [addedSigs]
      exact List.mem_append_right _ (ih h2)

theorem BatchStage_prefix (b : BatchPair) (s : CoreState) (tr : List CoreEvent)
    (future : List String) (h : BatchStage b s tr future) :
    (tasksOf b.headerSignature tr).IsPrefix b.txns := by
  rcases h with ⟨_, hnil⟩ | ⟨_, hnil⟩ | ⟨ab, _, _, hpre, _⟩ | ⟨hpre, _⟩
  · rw [hnil]; exact List.nil_prefix
  · rw [hnil]; exact List.nil_prefix
  · exact hpre
  · exact hpre

theorem coreInv_append_taskFree (s : CoreState) (tr es : List CoreEvent)
    (future : List String) (hInv : coreInv s tr future) (hes : taskFree es) :
    coreInv s (tr ++ es) future := by
  obtain ⟨hA, hT, hS, hW⟩ := hInv
  refine ⟨?_, TraceOk_append_taskFree tr es hT hes, ?_, hW⟩
  · intro ab hab
    refine ⟨?_, ?_⟩
    · intro c hc
      rw [lastTask_append_taskFree tr es hes]
      exact (hA ab hab).1 c hc
    · intro hcur hinv t1 hlast
      rw [lastTask_append_taskFree tr es hes] at hlast
      exact NotifySince_append_taskFree tr es t1 ((hA ab hab).2 hcur hinv t1 hlast) hes
  · intro sg hsg
    rw [taskSigs_append, taskSigs_eq_nil es hes, List.append_nil] at hsg
    exact hS sg hsg

theorem BatchStage_append_taskFree (b : BatchPair) (s : CoreState)
    (tr es : List CoreEvent) (future : List String)
    (h : BatchStage b s tr future) (hes : taskFree es) :
    BatchStage b s (tr ++ es) future := by
  have htof : tasksOf b.headerSignature (tr ++ es) = tasksOf b.headerSignature tr := by
    rw [tasksOf_append, tasksOf_eq_nil _ es hes, List.append_nil]
  rcases h with ⟨h1, h2⟩ | ⟨h1, h2⟩ | ⟨ab, h1, h2, h3, h4⟩ | ⟨h1, h2, h3, h4⟩
  · exact Or.inl ⟨h1, by rw [htof]; exact h2⟩
  · exact Or.inr (Or.inl ⟨h1, by rw [htof]; exact h2⟩)
  · exact Or.inr (Or.inr (Or.inl ⟨ab, h1, h2, by rw [htof]; exact h3,
      fun hi => by rw [htof]; exact h4 hi⟩))
  · exact Or.inr (Or.inr (Or.inr ⟨by rw [htof]; exact h1, h2, h3, h4⟩))

theorem coreInv_drop_active (q : List BatchPair) (flag don don2 : Bool)
    (act : Option ActiveBatch) (tr : List CoreEvent) (future : List String)
    (hInv : coreInv ⟨q, flag, don, act⟩ tr future) :
    coreInv ⟨q, flag, don2, none⟩ tr future := by
  obtain ⟨hA, hT, hS, hW⟩ := hInv
  refine ⟨?_, hT, ?_, ?_, ?_, ?_⟩
  · intro ab hab
    exact Option.noConfusion hab
  · intro sg hsg
    exact hS sg hsg
  · exact hW.1
  · exact hW.2.1
  · intro ab hab
    exact Option.noConfusion hab


theorem BatchStage_state_eq (b : BatchPair) (s s2 : CoreState)
    (hq : s.queue = s2.queue) (ha : s.active = s2.active)
    (tr : List CoreEvent) (future : List String)
    (h : BatchStage b s tr future) : BatchStage b s2 tr future := by
  rcases h with ⟨h1, h2⟩ | ⟨h1, h2⟩ | ⟨ab, h1, h2, h3, h4⟩ | ⟨h1, h2, h3, h4⟩
  · exact Or.inl ⟨h1, h2⟩
  · refine Or.inr (Or.inl ⟨?_, h2⟩)
    rw [← hq]
    exact h1
  · refine Or.inr (Or.inr (Or.inl ⟨ab, ?_, h2, h3, h4⟩))
    rw [← ha]
    exact h1
  · refine Or.inr (Or.inr (Or.inr ⟨h1, ?_, h3, ?_⟩))
    · rw [← hq]
      exact h2
    · intro ab hab
      refine h4 ab ?_
      rw [ha]
      exact hab

/-- Invariant and stage preservation for the scheduling pass started with no
active batch. -/
theorem progress_none_inv :
    ∀ (q : List BatchPair) (flag don : Bool) (tr : List CoreEvent)
      (future : List String),
      coreInv ⟨q, flag, don, none⟩ tr future →
      coreInv (progressAux q flag don none).1
          (tr ++ (progressAux q flag don none).2) future ∧
      ∀ b, BatchStage b ⟨q, flag, don, none⟩ tr future →
        BatchStage b (progressAux q flag don none).1
          (tr ++ (progressAux q flag don none).2) future := by
  intro q
  induction q with
  | nil =>
    intro flag don tr future hInv
    rw [progressAux_idle]
    by_cases hfd : (flag && !don) = true
    · rw [if_pos hfd]
      have hfree : taskFree [CoreEvent.endOfStream] := taskFree_single _ rfl
      constructor
      · exact coreInv_drop_active [] flag don true none _ future
          (coreInv_append_taskFree _ tr [CoreEvent.endOfStream] future hInv hfree)
      · intro b hb
        refine BatchStage_state_eq b ⟨[], flag, don, none⟩ _ rfl rfl _ future ?_
        exact BatchStage_append_taskFree b _ tr [CoreEvent.endOfStream] future hb hfree
    · rw [if_neg hfd]
      rw [List.append_nil]
      exact ⟨hInv, fun b hb => hb⟩
  | cons b rest ih =>
    intro flag don tr future hInv
    rw [progressAux_activate]
    obtain ⟨hA, hT, hS, hW⟩ := hInv
    have hbsig_mem : b.headerSignature
        ∈ (b :: rest).map BatchPair.headerSignature := by
      simp
    have hbnotin : b.headerSignature ∉ rest.map BatchPair.headerSignature := by
      have h2 := hW.1
      rw [List.map_cons, List.nodup_cons] at h2
      exact h2.1
    have htailnodup : (rest.map BatchPair.headerSignature).Nodup := by
      have h2 := hW.1
      rw [List.map_cons, List.nodup_cons] at h2
      exact h2.2
    have hbfut : b.headerSignature ∉ future := hW.2.1 _ hbsig_mem
    have hnotask : b.headerSignature ∉ taskSigs tr := by
      intro hmem
      exact (hS _ hmem).1 hbsig_mem
    have htof0 : tasksOf b.headerSignature tr = [] :=
      tasksOf_nil_of_not_sig _ tr hnotask
    cases hts : b.txns with
    | nil =>
      rw [progressAux_finish_nil]
      have hfree : taskFree [CoreEvent.batchResult b.headerSignature (!false)] :=
        taskFree_single _ rfl
      have hInv3 : coreInv ⟨rest, flag, don, none⟩
          (tr ++ [CoreEvent.batchResult b.headerSignature (!false)]) future := by
        refine coreInv_append_taskFree _ tr _ future ?_ hfree
        refine ⟨?_, hT, ?_, htailnodup, ?_, ?_⟩
        · intro ab hab
          exact Option.noConfusion hab
        · intro sg hsg
          have h2 := hS sg hsg
          refine ⟨?_, h2.2⟩
          intro hmem
          exact h2.1 (by rw [List.map_cons]; exact List.mem_cons_of_mem _ hmem)
        · intro sg hsg
          exact hW.2.1 sg (by rw [List.map_cons]; exact List.mem_cons_of_mem _ hsg)
        · intro ab hab
          exact Option.noConfusion hab
      obtain ⟨hI4, hSt4⟩ := ih flag don
        (tr ++ [CoreEvent.batchResult b.headerSignature (!false)]) future hInv3
      have hassoc : tr ++ (CoreEvent.batchResult b.headerSignature (!false)
            :: (progressAux rest flag don none).2)
          = (tr ++ [CoreEvent.batchResult b.headerSignature (!false)])
            ++ (progressAux rest flag don none).2 := by
        simp
      rw [hassoc]
      refine ⟨hI4, ?_⟩
      intro b0 hb0
      apply hSt4
      have hb1 := BatchStage_append_taskFree b0 _ tr _ future hb0 hfree
      rcases hb1 with ⟨h1, h2⟩ | ⟨h1, h2⟩ | ⟨ab, h1, h2, h3, h4⟩ | ⟨h1, h2, h3, h4⟩
      · exact Or.inl ⟨h1, h2⟩
      · rcases List.mem_cons.mp h1 with rfl | hmem
        · refine Or.inr (Or.inr (Or.inr ⟨?_, hbnotin, hbfut, ?_⟩))
          · rw [h2]
            exact List.nil_prefix
          · intro ab hab
            exact Option.noConfusion hab
        · exact Or.inr (Or.inl ⟨hmem, h2⟩)
      · exact Option.noConfusion h1
      · refine Or.inr (Or.inr (Or.inr ⟨h1, ?_, h3, ?_⟩))
        · intro hmem
          exact h2 (by rw [List.map_cons]; exact List.mem_cons_of_mem _ hmem)
        · intro ab hab
          exact Option.noConfusion hab
    | cons t ts =>
      rw [progressAux_dispatch]
      constructor
      · refine ⟨?_, ?_, ?_, htailnodup, ?_, ?_⟩
        · intro ab hab
          have hab2 : ab = ⟨b, ts, some t, [], false⟩ := by
            injection hab with h
            exact h.symm
          subst hab2
          refine ⟨?_, ?_⟩
          · intro c hc
            have hct : c = t := by
              injection hc with h
              exact h.symm
            subst hct
            exact lastTask_concat_task tr _ c
          · intro hcur
            exact Option.noConfusion hcur
        · refine TraceOk_snoc_task tr _ t hT ?_
          intro t1 hlast
          exact absurd (lastTask_sig_mem tr _ t1 hlast) hnotask
        · intro sg hsg
          rw [taskSigs_append, taskSigs_task] at hsg
          rcases List.mem_append.mp hsg with hsg | hsg
          · have h2 := hS sg hsg
            refine ⟨?_, h2.2⟩
            intro hmem
            exact h2.1 (by rw [List.map_cons]; exact List.mem_cons_of_mem _ hmem)
          · rcases List.mem_singleton.mp hsg with rfl
            exact ⟨hbnotin, hbfut⟩
        · intro sg hsg
          exact hW.2.1 sg (by rw [List.map_cons]; exact List.mem_cons_of_mem _ hsg)
        · intro ab hab
          have hab2 : ab = ⟨b, ts, some t, [], false⟩ := by
            injection hab with h
            exact h.symm
          subst hab2
          exact ⟨hbnotin, hbfut⟩
      · intro b0 hb0
        rcases hb0 with ⟨h1, h2⟩ | ⟨h1, h2⟩ | ⟨ab, h1, h2, h3, h4⟩ | ⟨h1, h2, h3, h4⟩
        · refine Or.inl ⟨h1, ?_⟩
          have hne : b.headerSignature ≠ b0.headerSignature := by
            intro heq
            rw [heq] at hbfut
            exact hbfut h1
          rw [tasksOf_append, h2, tasksOf_task_other _ _ _ hne]
          rfl
        · rcases List.mem_cons.mp h1 with rfl | hmem
          · refine Or.inr (Or.inr (Or.inl
              ⟨⟨b0, ts, some t, [], false⟩, rfl, rfl, ?_, ?_⟩))
            · rw [tasksOf_append, h2, tasksOf_task_same, List.nil_append, hts]
              exact ⟨ts, rfl⟩
            · intro _
              rw [tasksOf_append, h2, tasksOf_task_same, List.nil_append, hts]
              rfl
          · refine Or.inr (Or.inl ⟨hmem, ?_⟩)
            have hne : b.headerSignature ≠ b0.headerSignature := by
              intro heq
              exact hbnotin (by rw [heq]; exact List.mem_map_of_mem _ hmem)
            rw [tasksOf_append, h2, tasksOf_task_other _ _ _ hne]
            rfl
        · exact Option.noConfusion h1
        · have hne : b.headerSignature ≠ b0.headerSignature := by
            intro heq
            rw [heq] at hbsig_mem
            exact h2 hbsig_mem
          refine Or.inr (Or.inr (Or.inr ⟨?_, ?_, h3, ?_⟩))
          · rw [tasksOf_append, tasksOf_task_other _ _ _ hne, List.append_nil]
            exact h1
          · intro hmem
            exact h2 (by rw [List.map_cons]; exact List.mem_cons_of_mem _ hmem)
          · intro ab hab
            have hab2 : ab = ⟨b, ts, some t, [], false⟩ := by
              injection hab with h
              exact h.symm
            subst hab2
            exact hne


/-- One finished batch: the invariants and stages survive emitting the batch
result and continuing the scheduling pass with no active batch. -/
theorem progress_finish_step (q : List BatchPair) (flag don : Bool)
    (ab : ActiveBatch) (ev : CoreEvent) (hev : ev.isTask = false)
    (tr : List CoreEvent) (future : List String)
    (hInv : coreInv ⟨q, flag, don, some ab⟩ tr future) :
    coreInv (progressAux q flag don none).1
        ((tr ++ [ev]) ++ (progressAux q flag don none).2) future ∧
    ∀ b, BatchStage b ⟨q, flag, don, some ab⟩ tr future →
      BatchStage b (progressAux q flag don none).1
        ((tr ++ [ev]) ++ (progressAux q flag don none).2) future := by
  have hfree : taskFree [ev] := taskFree_single _ hev
  have hInv2 : coreInv ⟨q, flag, don, none⟩ (tr ++ [ev]) future :=
    coreInv_append_taskFree _ tr [ev] future
      (coreInv_drop_active q flag don don (some ab) tr future hInv) hfree
  obtain ⟨hI3, hSt3⟩ := progress_none_inv q flag don (tr ++ [ev]) future hInv2
  refine ⟨hI3, ?_⟩
  intro b0 hb0
  apply hSt3
  have hb1 := BatchStage_append_taskFree b0 _ tr [ev] future hb0 hfree
  obtain ⟨hA, hT, hS, hW⟩ := hInv
  have hact := hW.2.2 ab rfl
  rcases hb1 with ⟨h1, h2⟩ | ⟨h1, h2⟩ | ⟨ab0, h1, h2, h3, h4⟩ | ⟨h1, h2, h3, h4⟩
  · exact Or.inl ⟨h1, h2⟩
  · exact Or.inr (Or.inl ⟨h1, h2⟩)
  · have h5 : ab0 = ab := by
      injection h1 with h
      exact h.symm
    subst h5
    refine Or.inr (Or.inr (Or.inr ⟨h3, ?_, ?_, ?_⟩))
    · rw [← h2]
      exact hact.1
    · rw [← h2]
      exact hact.2
    · intro ab2 hab2
      exact Option.noConfusion hab2
  · refine Or.inr (Or.inr (Or.inr ⟨h1, h2, h3, ?_⟩))
    intro ab2 hab2
    exact Option.noConfusion hab2

/-- Invariant and stage preservation for the scheduling pass started with an
active batch. -/
theorem progress_some_inv (q : List BatchPair) (flag don : Bool)
    (ab : ActiveBatch) (tr : List CoreEvent) (future : List String)
    (hInv : coreInv ⟨q, flag, don, some ab⟩ tr future) :
    coreInv (progressAux q flag don (some ab)).1
        (tr ++ (progressAux q flag don (some ab)).2) future ∧
    ∀ b, BatchStage b ⟨q, flag, don, some ab⟩ tr future →
      BatchStage b (progressAux q flag don (some ab)).1
        (tr ++ (progressAux q flag don (some ab)).2) future := by
  obtain ⟨bb, rem, cur, res, inv⟩ := ab
  cases cur with
  | some c =>
    rw [progressAux_current, List.append_nil]
    exact ⟨hInv, fun b hb => hb⟩
  | none =>
    cases rem with
    | nil =>
      rw [progressAux_finish_nil]
      have hassoc : tr ++ (CoreEvent.batchResult bb.headerSignature (!inv)
            :: (progressAux q flag don none).2)
          = (tr ++ [CoreEvent.batchResult bb.headerSignature (!inv)])
            ++ (progressAux q flag don none).2 := by
        simp
      rw [hassoc]
      exact progress_finish_step q flag don ⟨bb, [], none, res, inv⟩
        (CoreEvent.batchResult bb.headerSignature (!inv)) rfl tr future hInv
    | cons t ts =>
      cases inv with
      | true =>
        rw [progressAux_finish_invalid]
        have hassoc : tr ++ (CoreEvent.batchResult bb.headerSignature false
              :: (progressAux q flag don none).2)
            = (tr ++ [CoreEvent.batchResult bb.headerSignature false])
              ++ (progressAux q flag don none).2 := by
          simp
        rw [hassoc]
        exact progress_finish_step q flag don ⟨bb, t :: ts, none, res, true⟩
          (CoreEvent.batchResult bb.headerSignature false) rfl tr future hInv
      | false =>
        rw [progressAux_dispatch]
        obtain ⟨hA, hT, hS, hW⟩ := hInv
        have hact := hW.2.2 ⟨bb, t :: ts, none, res, false⟩ rfl
        have hN : ∀ t1, lastTask tr = some (bb.headerSignature, t1) →
            NotifySince tr t1 := by
          intro t1 hlast
          exact (hA ⟨bb, t :: ts, none, res, false⟩ rfl).2 rfl rfl t1 hlast
        constructor
        · refine ⟨?_, ?_, ?_, hW.1, hW.2.1, ?_⟩
          · intro ab2 hab2
            have h2 : ab2 = ⟨bb, ts, some t, res, false⟩ := by
              injection hab2 with h
              exact h.symm
            subst h2
            refine ⟨?_, fun hcur => Option.noConfusion hcur⟩
            intro c hc
            have hct : c = t := by
              injection hc with h
              exact h.symm
            subst hct
            exact lastTask_concat_task tr _ c
          · exact TraceOk_snoc_task tr _ t hT hN
          · intro sg hsg
            rw [taskSigs_append, taskSigs_task] at hsg
            rcases List.mem_append.mp hsg with hsg | hsg
            · exact hS sg hsg
            · rcases List.mem_singleton.mp hsg with rfl
              exact hact
          · intro ab2 hab2
            have h2 : ab2 = ⟨bb, ts, some t, res, false⟩ := by
              injection hab2 with h
              exact h.symm
            subst h2
            exact hact
        · intro b0 hb0
          rcases hb0 with ⟨h1, h2⟩ | ⟨h1, h2⟩ | ⟨ab0, h1, h2, h3, h4⟩
            | ⟨h1, h2, h3, h4⟩
          · have hne : bb.headerSignature ≠ b0.headerSignature := by
              intro heq
              rw [heq] at hact
              exact hact.2 h1
            refine Or.inl ⟨h1, ?_⟩
            rw [tasksOf_append, h2, tasksOf_task_other _ _ _ hne]
            rfl
          · have hne : bb.headerSignature ≠ b0.headerSignature := by
              intro heq
              exact hact.1 (by rw [heq]; exact List.mem_map_of_mem _ h1)
            refine Or.inr (Or.inl ⟨h1, ?_⟩)
            rw [tasksOf_append, h2, tasksOf_task_other _ _ _ hne]
            rfl
          · have h5 : ab0 = ⟨bb, t :: ts, none, res, false⟩ := by
              injection h1 with h
              exact h.symm
            subst h5
            have hdecomp := h4 rfl
            subst h2
            refine Or.inr (Or.inr (Or.inl
              ⟨⟨bb, ts, some t, res, false⟩, rfl, rfl, ?_, ?_⟩))
            · rw [tasksOf_append, tasksOf_task_same]
              refine ⟨ts, ?_⟩
              rw [hdecomp]
              simp
            · intro _
              rw [tasksOf_append, tasksOf_task_same, hdecomp]
              simp
          · have hne : bb.headerSignature ≠ b0.headerSignature :=
              h4 ⟨bb, t :: ts, none, res, false⟩ rfl
            refine Or.inr (Or.inr (Or.inr ⟨?_, h2, h3, ?_⟩))
            · rw [tasksOf_append, tasksOf_task_other _ _ _ hne, List.append_nil]
              exact h1
            · intro ab2 hab2
              have h5 : ab2 = ⟨bb, ts, some t, res, false⟩ := by
                injection hab2 with h
                exact h.symm
              subst h5
              exact hne

/-- Invariant and stage preservation for the scheduling pass on a packed
core state. -/
theorem progress_inv (s : CoreState) (tr : List CoreEvent)
    (future : List String) (hInv : coreInv s tr future) :
    coreInv (progress s).1 (tr ++ (progress s).2) future ∧
    ∀ b, BatchStage b s tr future →
      BatchStage b (progress s).1 (tr ++ (progress s).2) future := by
  obtain ⟨q, flag, don, act⟩ := s
  cases act with
  | none => exact progress_none_inv q flag don tr future hInv
  | some ab => exact progress_some_inv q flag don ab tr future hInv


/-- A processed completion notification for the in-flight transaction: the
invariants survive marking it done and continuing the scheduling pass. -/
theorem coreStep_valid_inv (q : List BatchPair) (flag don : Bool)
    (bb : BatchPair) (rem : List String) (c : String) (res : List String)
    (inv : Bool) (tr : List CoreEvent) (rest : List String)
    (hInv : coreInv ⟨q, flag, don, some ⟨bb, rem, some c, res, inv⟩⟩ tr rest) :
    coreInv (progress ⟨q, flag, don, some ⟨bb, rem, none, res ++ [c], inv⟩⟩).1
        ((tr ++ [CoreEvent.notifyProcessed c])
          ++ (progress ⟨q, flag, don, some ⟨bb, rem, none, res ++ [c], inv⟩⟩).2)
        rest ∧
    ∀ b, BatchStage b ⟨q, flag, don, some ⟨bb, rem, some c, res, inv⟩⟩ tr rest →
      BatchStage b
        (progress ⟨q, flag, don, some ⟨bb, rem, none, res ++ [c], inv⟩⟩).1
        ((tr ++ [CoreEvent.notifyProcessed c])
          ++ (progress ⟨q, flag, don, some ⟨bb, rem, none, res ++ [c], inv⟩⟩).2)
        rest := by
  obtain ⟨hA, hT, hS, hW⟩ := hInv
  have hfree : taskFree [CoreEvent.notifyProcessed c] := taskFree_single _ rfl
  have hlastc : lastTask tr = some (bb.headerSignature, c) :=
    (hA ⟨bb, rem, some c, res, inv⟩ rfl).1 c rfl
  have hInv2 : coreInv ⟨q, flag, don, some ⟨bb, rem, none, res ++ [c], inv⟩⟩
      (tr ++ [CoreEvent.notifyProcessed c]) rest := by
    refine ⟨?_, TraceOk_append_taskFree tr _ hT hfree, ?_, hW.1, hW.2.1, ?_⟩
    · intro ab2 hab2
      have h2 : ab2 = ⟨bb, rem, none, res ++ [c], inv⟩ := by
        injection hab2 with h
        exact h.symm
      subst h2
      refine ⟨fun c2 hc2 => Option.noConfusion hc2, ?_⟩
      intro _ _ t1 hlast
      rw [lastTask_append_taskFree tr _ hfree, hlastc] at hlast
      have ht1 : t1 = c := by
        injection hlast with h
        exact (congrArg Prod.snd h).symm
      subst ht1
      exact ⟨tr, [CoreEvent.notifyProcessed t1], rfl, hfree,
        List.mem_singleton.mpr rfl⟩
    · intro sg hsg
      rw [taskSigs_append, taskSigs_eq_nil _ hfree, List.append_nil] at hsg
      exact hS sg hsg
    · intro ab2 hab2
      have h2 : ab2 = ⟨bb, rem, none, res ++ [c], inv⟩ := by
        injection hab2 with h
        exact h.symm
      subst h2
      exact hW.2.2 ⟨bb, rem, some c, res, inv⟩ rfl
  obtain ⟨hI3, hSt3⟩ := progress_inv _ _ rest hInv2
  refine ⟨hI3, ?_⟩
  intro b0 hb0
  apply hSt3
  have hb1 := BatchStage_append_taskFree b0 _ tr _ rest hb0 hfree
  rcases hb1 with ⟨h1, h2⟩ | ⟨h1, h2⟩ | ⟨ab0, h1, h2, h3, h4⟩ | ⟨h1, h2, h3, h4⟩
  · exact Or.inl ⟨h1, h2⟩
  · exact Or.inr (Or.inl ⟨h1, h2⟩)
  · have h5 : ab0 = ⟨bb, rem, some c, res, inv⟩ := by
      injection h1 with h
      exact h.symm
    subst h5
    exact Or.inr (Or.inr (Or.inl ⟨⟨bb, rem, none, res ++ [c], inv⟩, rfl, h2, h3, h4⟩))
  · refine Or.inr (Or.inr (Or.inr ⟨h1, h2, h3, ?_⟩))
    intro ab2 hab2
    have h5 : ab2 = ⟨bb, rem, none, res ++ [c], inv⟩ := by
      injection hab2 with h
      exact h.symm
    subst h5
    exact h4 ⟨bb, rem, some c, res, inv⟩ rfl

/-- An invalidating notification (wrong transaction id, or an invalid
result): the invariants survive marking the batch failed and continuing the
scheduling pass. -/
theorem coreStep_invalidate_inv (q : List BatchPair) (flag don : Bool)
    (bb : BatchPair) (rem : List String) (c : String) (res : List String)
    (inv : Bool) (es0 : List CoreEvent) (hes0 : taskFree es0)
    (tr : List CoreEvent) (rest : List String)
    (hInv : coreInv ⟨q, flag, don, some ⟨bb, rem, some c, res, inv⟩⟩ tr rest) :
    coreInv (progress ⟨q, flag, don, some ⟨bb, [], none, res, true⟩⟩).1
        ((tr ++ es0)
          ++ (progress ⟨q, flag, don, some ⟨bb, [], none, res, true⟩⟩).2)
        rest ∧
    ∀ b, BatchStage b ⟨q, flag, don, some ⟨bb, rem, some c, res, inv⟩⟩ tr rest →
      BatchStage b (progress ⟨q, flag, don, some ⟨bb, [], none, res, true⟩⟩).1
        ((tr ++ es0)
          ++ (progress ⟨q, flag, don, some ⟨bb, [], none, res, true⟩⟩).2)
        rest := by
  obtain ⟨hA, hT, hS, hW⟩ := hInv
  have hInv2 : coreInv ⟨q, flag, don, some ⟨bb, [], none, res, true⟩⟩
      (tr ++ es0) rest := by
    refine ⟨?_, TraceOk_append_taskFree tr _ hT hes0, ?_, hW.1, hW.2.1, ?_⟩
    · intro ab2 hab2
      have h2 : ab2 = ⟨bb, [], none, res, true⟩ := by
        injection hab2 with h
        exact h.symm
      subst h2
      refine ⟨fun c2 hc2 => Option.noConfusion hc2, ?_⟩
      intro _ hinv
      exact Bool.noConfusion hinv
    · intro sg hsg
      rw [taskSigs_append, taskSigs_eq_nil _ hes0, List.append_nil] at hsg
      exact hS sg hsg
    · intro ab2 hab2
      have h2 : ab2 = ⟨bb, [], none, res, true⟩ := by
        injection hab2 with h
        exact h.symm
      subst h2
      exact hW.2.2 ⟨bb, rem, some c, res, inv⟩ rfl
  obtain ⟨hI3, hSt3⟩ := progress_inv _ _ rest hInv2
  refine ⟨hI3, ?_⟩
  intro b0 hb0
  apply hSt3
  have hb1 := BatchStage_append_taskFree b0 _ tr _ rest hb0 hes0
  rcases hb1 with ⟨h1, h2⟩ | ⟨h1, h2⟩ | ⟨ab0, h1, h2, h3, h4⟩ | ⟨h1, h2, h3, h4⟩
  · exact Or.inl ⟨h1, h2⟩
  · exact Or.inr (Or.inl ⟨h1, h2⟩)
  · have h5 : ab0 = ⟨bb, rem, some c, res, inv⟩ := by
      injection h1 with h
      exact h.symm
    subst h5
    refine Or.inr (Or.inr (Or.inl ⟨⟨bb, [], none, res, true⟩, rfl, h2, h3, ?_⟩))
    intro hinv
    exact Bool.noConfusion hinv
  · refine Or.inr (Or.inr (Or.inr ⟨h1, h2, h3, ?_⟩))
    intro ab2 hab2
    have h5 : ab2 = ⟨bb, [], none, res, true⟩ := by
      injection hab2 with h
      exact h.symm
    subst h5
    exact h4 ⟨bb, rem, some c, res, inv⟩ rfl


/-- Processing one core message preserves the invariants, consuming the
message's batch signature from the future ones; the stage of a batch is
preserved provided the batch is the one being added or carries a different
signature. -/
theorem coreStep_inv (s : CoreState) (m : CoreMessage) (tr : List CoreEvent)
    (rest : List String)
    (hdisj : ∀ sg ∈ msgSigs m, sg ∉ rest)
    (hInv : coreInv s tr (msgSigs m ++ rest)) :
    coreInv (coreStep s m).1 (tr ++ (coreStep s m).2) rest ∧
    ∀ b, BatchStage b s tr (msgSigs m ++ rest) →
      (CoreMessage.batchAdded b = m ∨ b.headerSignature ∉ msgSigs m) →
      BatchStage b (coreStep s m).1 (tr ++ (coreStep s m).2) rest := by
  cases m with
  | batchAdded b2 =>
    obtain ⟨q, flag, don, act⟩ := s
    obtain ⟨hA, hT, hS, hW⟩ := hInv
    have hself : b2.headerSignature
        ∈ msgSigs (CoreMessage.batchAdded b2) ++ rest :=
      List.mem_append_left _ (List.mem_singleton.mpr rfl)
    have hb2rest : b2.headerSignature ∉ rest :=
      hdisj _ (List.mem_singleton.mpr rfl)
    have hb2q : b2.headerSignature ∉ q.map BatchPair.headerSignature := by
      intro hmem
      exact hW.2.1 _ hmem hself
    have hInv2 : coreInv ⟨q ++ [b2], flag, don, act⟩ tr rest := by
      refine ⟨?_, hT, ?_, ?_, ?_, ?_⟩
      · intro ab hab
        exact hA ab hab
      · intro sg hsg
        have h2 := hS sg hsg
        have hsgne : sg ≠ b2.headerSignature := by
          intro heq
          rw [heq] at h2
          exact h2.2 hself
        dsimp only
        refine ⟨?_, fun hr => h2.2 (List.mem_append_right _ hr)⟩
        rw [List.map_append]
        intro hmem
        rcases List.mem_append.mp hmem with hm | hm
        · exact h2.1 hm
        · rcases List.mem_singleton.mp hm with heq
          exact hsgne heq
      · dsimp only
        rw [List.map_append]
        refine List.Nodup.append hW.1 (List.nodup_singleton _) ?_
        intro a ha hb
        rcases List.mem_singleton.mp hb with rfl
        exact hb2q ha
      · dsimp only
        intro sg hsg2
        rw [List.map_append] at hsg2
        rcases List.mem_append.mp hsg2 with hm | hm
        · exact fun hr => hW.2.1 _ hm (List.mem_append_right _ hr)
        · rcases List.mem_singleton.mp hm with rfl
          exact hb2rest
      · intro ab hab
        have h2 := hW.2.2 ab hab
        dsimp only
        refine ⟨?_, fun hr => h2.2 (List.mem_append_right _ hr)⟩
        rw [List.map_append]
        intro hmem
        rcases List.mem_append.mp hmem with hm | hm
        · exact h2.1 hm
        · rcases List.mem_singleton.mp hm with heq
          rw [heq] at h2
          exact h2.2 hself
    obtain ⟨hI3, hSt3⟩ := progress_inv ⟨q ++ [b2], flag, don, act⟩ tr rest hInv2
    constructor
    · exact hI3
    · intro b0 hb0 hside
      apply hSt3
      rcases hb0 with ⟨h1, h2⟩ | ⟨h1, h2⟩ | ⟨ab0, h1, h2, h3, h4⟩ | ⟨h1, h2, h3, h4⟩
      · rcases List.mem_append.mp h1 with hm | hm
        · rcases hside with heq | hns
          · have hb0b2 : b0 = b2 := by
              injection heq
            subst hb0b2
            exact Or.inr (Or.inl ⟨List.mem_append_right _
              (List.mem_singleton.mpr rfl), h2⟩)
          · exact absurd hm hns
        · exact Or.inl ⟨hm, h2⟩
      · exact Or.inr (Or.inl ⟨List.mem_append_left _ h1, h2⟩)
      · exact Or.inr (Or.inr (Or.inl ⟨ab0, h1, h2, h3, h4⟩))
      · refine Or.inr (Or.inr (Or.inr ⟨h1, ?_,
          fun hr => h3 (List.mem_append_right _ hr), h4⟩))
        dsimp only
        rw [List.map_append]
        intro hmem
        rcases List.mem_append.mp hmem with hm | hm
        · exact h2 hm
        · rcases List.mem_singleton.mp hm with heq
          rw [heq] at h3
          exact h3 hself
  | finalizedWake =>
    obtain ⟨q, flag, don, act⟩ := s
    have hInv2 : coreInv ⟨q, true, don, act⟩ tr rest := hInv
    obtain ⟨hI3, hSt3⟩ := progress_inv ⟨q, true, don, act⟩ tr rest hInv2
    refine ⟨hI3, ?_⟩
    intro b0 hb0 _
    apply hSt3
    exact BatchStage_state_eq b0 ⟨q, flag, don, act⟩ ⟨q, true, don, act⟩
      rfl rfl tr rest hb0
  | shutdownWake =>
    have hstep : coreStep s CoreMessage.shutdownWake = (s, []) := rfl
    rw [hstep, List.append_nil]
    exact ⟨hInv, fun b0 hb0 _ => hb0⟩
  | executionResult n =>
    obtain ⟨q, flag, don, act⟩ := s
    have hfree2 : taskFree [CoreEvent.notifyProcessed n.txnId,
        CoreEvent.errorUnexpected n.txnId] := by
      intro e he
      rcases List.mem_cons.mp he with rfl | he2
      · rfl
      · rcases List.mem_singleton.mp he2 with rfl
        rfl
    cases act with
    | none =>
      have hstep : coreStep ⟨q, flag, don, none⟩ (CoreMessage.executionResult n)
          = (⟨q, flag, don, none⟩, [CoreEvent.notifyProcessed n.txnId,
             CoreEvent.errorUnexpected n.txnId]) := rfl
      rw [hstep]
      constructor
      · exact coreInv_append_taskFree _ tr _ rest hInv hfree2
      · intro b0 hb0 _
        exact BatchStage_append_taskFree b0 _ tr _ rest hb0 hfree2
    | some ab =>
      obtain ⟨bb, rem, cur, res, inv⟩ := ab
      cases cur with
      | none =>
        have hstep : coreStep ⟨q, flag, don, some ⟨bb, rem, none, res, inv⟩⟩
            (CoreMessage.executionResult n)
            = (⟨q, flag, don, some ⟨bb, rem, none, res, inv⟩⟩,
               [CoreEvent.notifyProcessed n.txnId,
                CoreEvent.errorUnexpected n.txnId]) := rfl
        rw [hstep]
        constructor
        · exact coreInv_append_taskFree _ tr _ rest hInv hfree2
        · intro b0 hb0 _
          exact BatchStage_append_taskFree b0 _ tr _ rest hb0 hfree2
      | some c =>
        cases n with
        | valid tid =>
          by_cases htid : (tid == c) = true
          · have htc : tid = c := beq_iff_eq.mp htid
            subst htc
            have hstep : coreStep ⟨q, flag, don, some ⟨bb, rem, some tid, res, inv⟩⟩
                (CoreMessage.executionResult (Notification.valid tid))
                = ((progress ⟨q, flag, don, some ⟨bb, rem, none, res ++ [tid], inv⟩⟩).1,
                   CoreEvent.notifyProcessed tid
                     :: (progress ⟨q, flag, don,
                          some ⟨bb, rem, none, res ++ [tid], inv⟩⟩).2) := by
              simp [coreStep, Notification.txnId, htid]
            rw [hstep]
            have hassoc : tr ++ (CoreEvent.notifyProcessed tid
                  :: (progress ⟨q, flag, don,
                       some ⟨bb, rem, none, res ++ [tid], inv⟩⟩).2)
                = (tr ++ [CoreEvent.notifyProcessed tid])
                  ++ (progress ⟨q, flag, don,
                       some ⟨bb, rem, none, res ++ [tid], inv⟩⟩).2 := by
              simp
            rw [hassoc]
            obtain ⟨hI3, hSt3⟩ :=
              coreStep_valid_inv q flag don bb rem tid res inv tr rest hInv
            exact ⟨hI3, fun b0 hb0 _ => hSt3 b0 hb0⟩
          · have hstep : coreStep ⟨q, flag, don, some ⟨bb, rem, some c, res, inv⟩⟩
                (CoreMessage.executionResult (Notification.valid tid))
                = ((progress ⟨q, flag, don, some ⟨bb, [], none, res, true⟩⟩).1,
                   CoreEvent.notifyProcessed tid :: CoreEvent.errorUnexpected tid
                     :: (progress ⟨q, flag, don,
                          some ⟨bb, [], none, res, true⟩⟩).2) := by
              simp [coreStep, Notification.txnId, htid]
            rw [hstep]
            have hassoc : tr ++ (CoreEvent.notifyProcessed tid
                  :: CoreEvent.errorUnexpected tid
                  :: (progress ⟨q, flag, don, some ⟨bb, [], none, res, true⟩⟩).2)
                = (tr ++ [CoreEvent.notifyProcessed tid,
                     CoreEvent.errorUnexpected tid])
                  ++ (progress ⟨q, flag, don,
                       some ⟨bb, [], none, res, true⟩⟩).2 := by
              simp
            rw [hassoc]
            obtain ⟨hI3, hSt3⟩ := coreStep_invalidate_inv q flag don bb rem c res
              inv [CoreEvent.notifyProcessed tid, CoreEvent.errorUnexpected tid]
              (by intro e he
                  rcases List.mem_cons.mp he with rfl | he2
                  · rfl
                  · rcases List.mem_singleton.mp he2 with rfl
                    rfl)
              tr rest hInv
            exact ⟨hI3, fun b0 hb0 _ => hSt3 b0 hb0⟩
        | invalid tid =>
          by_cases htid : (tid == c) = true
          · have htc : tid = c := beq_iff_eq.mp htid
            subst htc
            have hstep : coreStep ⟨q, flag, don, some ⟨bb, rem, some tid, res, inv⟩⟩
                (CoreMessage.executionResult (Notification.invalid tid))
                = ((progress ⟨q, flag, don, some ⟨bb, [], none, res, true⟩⟩).1,
                   CoreEvent.notifyProcessed tid
                     :: (progress ⟨q, flag, don,
                          some ⟨bb, [], none, res, true⟩⟩).2) := by
              simp [coreStep, Notification.txnId, htid]
            rw [hstep]
            have hassoc : tr ++ (CoreEvent.notifyProcessed tid
                  :: (progress ⟨q, flag, don, some ⟨bb, [], none, res, true⟩⟩).2)
                = (tr ++ [CoreEvent.notifyProcessed tid])
                  ++ (progress ⟨q, flag, don,
                       some ⟨bb, [], none, res, true⟩⟩).2 := by
              simp
            rw [hassoc]
            obtain ⟨hI3, hSt3⟩ := coreStep_invalidate_inv q flag don bb rem tid res
              inv [CoreEvent.notifyProcessed tid] (taskFree_single _ rfl)
              tr rest hInv
            exact ⟨hI3, fun b0 hb0 _ => hSt3 b0 hb0⟩
          · have hstep : coreStep ⟨q, flag, don, some ⟨bb, rem, some c, res, inv⟩⟩
                (CoreMessage.executionResult (Notification.invalid tid))
                = ((progress ⟨q, flag, don, some ⟨bb, [], none, res, true⟩⟩).1,
                   CoreEvent.notifyProcessed tid :: CoreEvent.errorUnexpected tid
                     :: (progress ⟨q, flag, don,
                          some ⟨bb, [], none, res, true⟩⟩).2) := by
              simp [coreStep, Notification.txnId, htid]
            rw [hstep]
            have hassoc : tr ++ (CoreEvent.notifyProcessed tid
                  :: CoreEvent.errorUnexpected tid
                  :: (progress ⟨q, flag, don, some ⟨bb, [], none, res, true⟩⟩).2)
                = (tr ++ [CoreEvent.notifyProcessed tid,
                     CoreEvent.errorUnexpected tid])
                  ++ (progress ⟨q, flag, don,
                       some ⟨bb, [], none, res, true⟩⟩).2 := by
              simp
            rw [hassoc]
            obtain ⟨hI3, hSt3⟩ := coreStep_invalidate_inv q flag don bb rem c res
              inv [CoreEvent.notifyProcessed tid, CoreEvent.errorUnexpected tid]
              (by intro e he
                  rcases List.mem_cons.mp he with rfl | he2
                  · rfl
                  · rcases List.mem_singleton.mp he2 with rfl
                    rfl)
              tr rest hInv
            exact ⟨hI3, fun b0 hb0 _ => hSt3 b0 hb0⟩


/-- Over a whole run of the core worker: the trace satisfies the C6
ordering property, and the tasks emitted for a tracked batch form a prefix
of its transaction list, in order. -/
theorem coreRun_inv :
    ∀ (msgs : List CoreMessage) (s : CoreState) (tr : List CoreEvent)
      (b : BatchPair),
      (addedSigs msgs).Nodup →
      coreInv s tr (addedSigs msgs) →
      BatchStage b s tr (addedSigs msgs) →
      (b.headerSignature ∈ addedSigs msgs → CoreMessage.batchAdded b ∈ msgs) →
      TraceOk (tr ++ (coreRun s msgs).2) ∧
      (tasksOf b.headerSignature (tr ++ (coreRun s msgs).2)).IsPrefix b.txns := by
  intro msgs
  induction msgs with
  | nil =>
    intro s tr b _ hInv hStage _
    have h : (coreRun s []).2 = [] := rfl
    rw [h, List.append_nil]
    exact ⟨hInv.2.1, BatchStage_prefix b s tr _ hStage⟩
  | cons m ms ih =>
    intro s tr b hnd hInv hStage hbmem
    cases m with
    | shutdownWake =>
      have h : (coreRun s (CoreMessage.shutdownWake :: ms)).2 = [] := rfl
      rw [h, List.append_nil]
      exact ⟨hInv.2.1, BatchStage_prefix b s tr _ hStage⟩
    | batchAdded b2 =>
      have hrun : (coreRun s (CoreMessage.batchAdded b2 :: ms)).2
          = (coreStep s (CoreMessage.batchAdded b2)).2
            ++ (coreRun (coreStep s (CoreMessage.batchAdded b2)).1 ms).2 := rfl
      rw [hrun, ← List.append_assoc]
      have hnd2 : (msgSigs (CoreMessage.batchAdded b2) ++ addedSigs ms).Nodup := hnd
      have hdisj : ∀ sg ∈ msgSigs (CoreMessage.batchAdded b2),
          sg ∉ addedSigs ms := by
        intro sg hsg hsg2
        exact List.disjoint_of_nodup_append hnd2 hsg hsg2
      obtain ⟨hI2, hSt2⟩ := coreStep_inv s (CoreMessage.batchAdded b2) tr
        (addedSigs ms) hdisj hInv
      have hside : CoreMessage.batchAdded b = CoreMessage.batchAdded b2
          ∨ b.headerSignature ∉ msgSigs (CoreMessage.batchAdded b2) := by
        by_cases hbs : b.headerSignature ∈ msgSigs (CoreMessage.batchAdded b2)
        · left
          have hmm := hbmem (List.mem_append_left _ hbs)
          rcases List.mem_cons.mp hmm with heq | hmem2
          · exact heq
          · exact absurd (mem_addedSigs_of_mem b ms hmem2) (hdisj _ hbs)
        · exact Or.inr hbs
      have hbmem2 : b.headerSignature ∈ addedSigs ms →
          CoreMessage.batchAdded b ∈ ms := by
        intro hsig
        have hmm := hbmem (List.mem_append_right _ hsig)
        rcases List.mem_cons.mp hmm with heq | hmem2
        · exfalso
          have hb2 : b = b2 := by
            injection heq
          apply hdisj b.headerSignature ?_ hsig
          rw [hb2]
          exact List.mem_singleton.mpr rfl
        · exact hmem2
      exact ih (coreStep s (CoreMessage.batchAdded b2)).1
        (tr ++ (coreStep s (CoreMessage.batchAdded b2)).2) b
        (List.Nodup.of_append_right hnd2) hI2 (hSt2 b hStage hside) hbmem2
    | finalizedWake =>
      have hrun : (coreRun s (CoreMessage.finalizedWake :: ms)).2
          = (coreStep s CoreMessage.finalizedWake).2
            ++ (coreRun (coreStep s CoreMessage.finalizedWake).1 ms).2 := rfl
      rw [hrun, ← List.append_assoc]
      have hdisj : ∀ sg ∈ msgSigs CoreMessage.finalizedWake,
          sg ∉ addedSigs ms := by
        intro sg hsg
        exact absurd hsg (List.not_mem_nil _)
      obtain ⟨hI2, hSt2⟩ := coreStep_inv s CoreMessage.finalizedWake tr
        (addedSigs ms) hdisj hInv
      have hbmem2 : b.headerSignature ∈ addedSigs ms →
          CoreMessage.batchAdded b ∈ ms := by
        intro hsig
        have hmm := hbmem hsig
        rcases List.mem_cons.mp hmm with heq | hmem2
        · exact CoreMessage.noConfusion heq
        · exact hmem2
      exact ih (coreStep s CoreMessage.finalizedWake).1
        (tr ++ (coreStep s CoreMessage.finalizedWake).2) b hnd hI2
        (hSt2 b hStage (Or.inr (List.not_mem_nil _))) hbmem2
    | executionResult n =>
      have hrun : (coreRun s (CoreMessage.executionResult n :: ms)).2
          = (coreStep s (CoreMessage.executionResult n)).2
            ++ (coreRun (coreStep s (CoreMessage.executionResult n)).1 ms).2 := rfl
      rw [hrun, ← List.append_assoc]
      have hdisj : ∀ sg ∈ msgSigs (CoreMessage.executionResult n),
          sg ∉ addedSigs ms := by
        intro sg hsg
        exact absurd hsg (List.not_mem_nil _)
      obtain ⟨hI2, hSt2⟩ := coreStep_inv s (CoreMessage.executionResult n) tr
        (addedSigs ms) hdisj hInv
      have hbmem2 : b.headerSignature ∈ addedSigs ms →
          CoreMessage.batchAdded b ∈ ms := by
        intro hsig
        have hmm := hbmem hsig
        rcases List.mem_cons.mp hmm with heq | hmem2
        · exact CoreMessage.noConfusion heq
        · exact hmem2
      exact ih (coreStep s (CoreMessage.executionResult n)).1
        (tr ++ (coreStep s (CoreMessage.executionResult n)).2) b hnd hI2
        (hSt2 b hStage (Or.inr (List.not_mem_nil _))) hbmem2


/-- C6: for every batch processed by the serial scheduler core, transactions
within the batch are dispatched one at a time and in the batch's transaction
order: the tasks emitted for the batch form a prefix of its transaction
list, and between two consecutive task emissions of one batch the completion
notification for the earlier transaction was received and processed by the
core. -/
theorem claim_C6_serial_dispatch (msgs : List CoreMessage) (b : BatchPair)
    (hnd : (addedSigs msgs).Nodup)
    (hmem : CoreMessage.batchAdded b ∈ msgs) :
    TraceOk (coreRun coreInit msgs).2 ∧
    (tasksOf b.headerSignature (coreRun coreInit msgs).2).IsPrefix b.txns := by
  have hInv0 : coreInv coreInit [] (addedSigs msgs) := by
    refine ⟨?_, ?_, ?_, ?_, ?_, ?_⟩
    · intro ab hab
      exact Option.noConfusion hab
    · intro pre mid post sg t1 t2 heq _
      exfalso
      have hlen := congrArg List.length heq
      simp [List.length_append] at hlen
      omega
    · intro sg hsg
      exact absurd hsg (List.not_mem_nil _)
    · exact List.nodup_nil
    · intro sg hsg
      exact absurd hsg (List.not_mem_nil _)
    · intro ab hab
      exact Option.noConfusion hab
  have hStage0 : BatchStage b coreInit [] (addedSigs msgs) :=
    Or.inl ⟨mem_addedSigs_of_mem b msgs hmem, rfl⟩
  have h := coreRun_inv msgs coreInit [] b hnd hInv0 hStage0 (fun _ => hmem)
  rwa [List.nil_append] at h

theorem claim_C6_serial_dispatch_witness :
    (addedSigs [CoreMessage.batchAdded ⟨"B", ["t1", "t2"]⟩,
        CoreMessage.executionResult (Notification.valid "t1"),
        CoreMessage.executionResult (Notification.valid "t2"),
        CoreMessage.finalizedWake]).Nodup ∧
    CoreMessage.batchAdded (⟨"B", ["t1", "t2"]⟩ : BatchPair)
      ∈ [CoreMessage.batchAdded ⟨"B", ["t1", "t2"]⟩,
         CoreMessage.executionResult (Notification.valid "t1"),
         CoreMessage.executionResult (Notification.valid "t2"),
         CoreMessage.finalizedWake] ∧
    (TraceOk (coreRun coreInit [CoreMessage.batchAdded ⟨"B", ["t1", "t2"]⟩,
        CoreMessage.executionResult (Notification.valid "t1"),
        CoreMessage.executionResult (Notification.valid "t2"),
        CoreMessage.finalizedWake]).2 ∧
      (tasksOf "B" (coreRun coreInit [CoreMessage.batchAdded ⟨"B", ["t1", "t2"]⟩,
        CoreMessage.executionResult (Notification.valid "t1"),
        CoreMessage.executionResult (Notification.valid "t2"),
        CoreMessage.finalizedWake]).2).IsPrefix ["t1", "t2"]) :=
  ⟨by decide, by decide,
   claim_C6_serial_dispatch _ ⟨"B", ["t1", "t2"]⟩ (by decide) (by decide)⟩

end Transact
